import Mathlib

/-!
# servigo: a verification development

A shallow embedding of `main.go` (the scaffolding command `servigo`) and of the
library calls it makes, followed by the properties proved about it.

* Go strings and file contents are byte sequences: `Bytes := List Nat`.
* `strings.Replace`, `strings.Count`, `strings.Index`, `strings.HasSuffix` and the
  UTF-8 width computation they rely on follow the Go standard library.
* The file system is a tree of regular files and directories (`Node`). Not modelled:
  hard links, the search permission of the directories above a file, write errors
  other than a missing write permission, the umask. The process is taken to own the
  files and to be unprivileged, so the owner bits decide what it may do.
* Symbolic links are added to the tree by `Linked`; `Links.replaceInFile` and
  `Links.replaceImportsInDir` are the rewriter on a file system that has them
  (`os.ReadFile` and `os.WriteFile` follow a link, `filepath.Walk` meets it as a
  non-directory entry). Without links they are the functions on the tree.
* Paths are lists of component names, resolved lexically from a path string; the
  paths `filepath.Walk` hands to its function are kept in resolved form.
* `git.PlainCloneContext`, `git init` and `go mod tidy` are external tools; they are
  parameters of the model (`Tools`). `sampleTools` stands in for them where the model
  is run on a concrete input.
* `World.trace` records the outside calls `run` makes, each with the working directory
  it is made in; it is how "which step ran, and where" is stated.
-/

namespace Servigo

/-! ## Byte strings -/

/-- A Go string (or a file's content): a sequence of bytes. -/
abbrev Bytes := List Nat

/-- The bytes of an ASCII string literal. -/
def ascii (s : String) : Bytes := s.toList.map Char.toNat

/-! ## Package `unicode/utf8` (width of the first encoded rune) -/

/-- Lower bound of a continuation byte (`utf8.locb`). -/
def locb : Nat := 0x80

/-- Upper bound of a continuation byte (`utf8.hicb`). -/
def hicb : Nat := 0xBF

/-- The information `utf8.first` and `utf8.acceptRanges` hold for a lead byte:
the size of the sequence it opens and the accepted range of the second byte.
Size 1 stands for an ASCII byte (`as`) or an invalid lead byte (`xx`). -/
def first (b : Nat) : Nat × Nat × Nat :=
  if b < 0x80 then (1, 0, 0)
  else if b < 0xC2 then (1, 0, 0)
  else if b < 0xE0 then (2, locb, hicb)
  else if b = 0xE0 then (3, 0xA0, hicb)
  else if b < 0xED then (3, locb, hicb)
  else if b = 0xED then (3, locb, 0x9F)
  else if b < 0xF0 then (3, locb, hicb)
  else if b = 0xF0 then (4, 0x90, hicb)
  else if b < 0xF4 then (4, locb, hicb)
  else if b = 0xF4 then (4, locb, 0x8F)
  else (1, 0, 0)

/-- The width returned by `utf8.DecodeRuneInString(s)`: 0 for the empty string, 1 for
an ASCII byte or an invalid or truncated encoding, else the length of the sequence. -/
def DecodeRuneInString (s : Bytes) : Nat :=
  match s with
  | [] => 0
  | s0 :: rest =>
    match first s0 with
    | (sz, lo, hi) =>
      if sz ≤ 1 then 1
      else if s.length < sz then 1
      else
        match rest with
        | [] => 1
        | s1 :: rest2 =>
          if s1 < lo ∨ hi < s1 then 1
          else if sz ≤ 2 then 2
          else
            match rest2 with
            | [] => 1
            | s2 :: rest3 =>
              if s2 < locb ∨ hicb < s2 then 1
              else if sz ≤ 3 then 3
              else
                match rest3 with
                | [] => 1
                | s3 :: _ => if s3 < locb ∨ hicb < s3 then 1 else 4

/-- The loop of `utf8.RuneCountInString`: one count per encoded sequence; the loop
runs while `i < len(s)`, so `len(s)` iterations always suffice. -/
def runeCountLoop : Nat → Bytes → Nat → Nat
  | 0, _, n => n
  | fuel + 1, s, n =>
    if s = [] then n else runeCountLoop fuel (s.drop (DecodeRuneInString s)) (n + 1)

/-- Model of `utf8.RuneCountInString`. -/
def RuneCountInString (s : Bytes) : Nat := runeCountLoop s.length s 0

/-! ## Package `strings` -/

/-- Model of `strings.HasPrefix`: `len(s) >= len(prefix) && s[:len(prefix)] == prefix`. -/
def HasPrefix (s pre : Bytes) : Bool :=
  decide (pre.length ≤ s.length) && decide (s.take pre.length = pre)

/-- Model of `strings.HasSuffix`:
`len(s) >= len(suffix) && s[len(s)-len(suffix):] == suffix`. -/
def HasSuffix (s suf : Bytes) : Bool :=
  decide (suf.length ≤ s.length) && decide (s.drop (s.length - suf.length) = suf)

/-- Model of `strings.Index`: the index of the first instance of `substr` in `s`;
`none` stands for Go's `-1`. -/
def Index (s substr : Bytes) : Option Nat :=
  if HasPrefix s substr then some 0
  else
    match s with
    | [] => none
    | _ :: t => (Index t substr).map (· + 1)

/-- The loop of `strings.Count` for a non-empty `substr`: find the next instance, count
it, continue behind it. Every round consumes at least one byte of `s`. -/
def countLoop (substr : Bytes) : Nat → Bytes → Nat → Nat
  | 0, _, n => n
  | fuel + 1, s, n =>
    match Index s substr with
    | none => n
    | some i => countLoop substr fuel (s.drop (i + substr.length)) (n + 1)

/-- Model of `strings.Count`: the number of non-overlapping instances of `substr`;
for the empty `substr`, one more than the number of runes. -/
def Count (s substr : Bytes) : Nat :=
  if substr.length = 0 then RuneCountInString s + 1
  else countLoop substr (s.length + 1) s 0

/-- The replacement loop of `strings.Replace` (`for i := 0; i < n; i++`), on the part
of `s` not yet consumed (`s[start:]`); the result is what the loop and the final
`b.WriteString(s[start:])` append to the builder. `k` is the number of rounds left. -/
def replaceLoop (old new : Bytes) : Nat → Nat → Bytes → Bytes
  | 0, _, rest => rest
  | k + 1, i, rest =>
    let j :=
      if old.length = 0 then (if 0 < i then DecodeRuneInString rest else 0)
      else
        match Index rest old with
        | some d => d
        | none => 0 -- not reached: the loop runs at most `Count(s, old)` rounds
    rest.take j ++ new ++ replaceLoop old new k (i + 1) (rest.drop (j + old.length))

/-- Model of `strings.Replace(s, old, new, n)`. -/
def Replace (s old new : Bytes) (n : Int) : Bytes :=
  if old = new ∨ n = 0 then s
  else
    let m := Count s old
    if m = 0 then s
    else
      let rounds : Nat := if n < 0 ∨ (m : Int) < n then m else n.toNat
      replaceLoop old new rounds 0 s

/-! ## The substitution as the specification words it -/

/-- Occurrence: `old` occurs in `c` as a contiguous substring. -/
def Occurs (old c : Bytes) : Prop := old <:+: c

instance (old c : Bytes) : Decidable (Occurs old c) :=
  inferInstanceAs (Decidable (old <:+: c))

/-- Left-to-right replacement of the non-overlapping occurrences of a non-empty `old`:
at each position, an occurrence starting there is replaced by `new` and skipped,
any other byte is copied. The counter is the number of bytes of a replaced
occurrence still to skip. -/
def scan (old new : Bytes) : Nat → Bytes → Bytes
  | _, [] => []
  | k + 1, _ :: cs => scan old new k cs
  | 0, c :: cs =>
    if old <+: c :: cs then new ++ scan old new (old.length - 1) cs
    else c :: scan old new 0 cs

/-- The UTF-8 sequences of a content, in order (an invalid byte is a sequence of
its own). -/
def sequences : Nat → Bytes → List Bytes
  | 0, _ => []
  | fuel + 1, s =>
    if s = [] then []
    else s.take (DecodeRuneInString s) :: sequences fuel (s.drop (DecodeRuneInString s))

/-- The content `c` with every occurrence of `old` replaced by `new`. Occurrences of
a non-empty `old` are taken left to right and do not overlap; the empty `old` occurs
at the start of the content and after each of its UTF-8 sequences. -/
def replaceAllSpec (c old new : Bytes) : Bytes :=
  if old = [] then new ++ ((sequences c.length c).map (· ++ new)).flatten
  else scan old new 0 c


/-! ## Errors -/

/-- The errors of the model. `wrap ctx e` is `fmt.Errorf(ctx + ": %w", e)`. -/
inductive Err where
  | notExist
  | permission
  | isDirectory
  | invalid
  | tool (msg : String)
  | depth
  | loop
  | wrap (ctx : String) (e : Err)
  deriving DecidableEq, Repr

/-- The text of an error (`err.Error()`). -/
def Err.Error : Err → String
  | .notExist => "no such file or directory"
  | .permission => "permission denied"
  | .isDirectory => "is a directory"
  | .invalid => "invalid argument"
  | .tool msg => msg
  | .depth => "traversal bound of the model exceeded"
  | .loop => "too many levels of symbolic links"
  | .wrap ctx e => ctx ++ ": " ++ e.Error

/-! ## The file system: a tree of regular files and directories -/

/-- A resolved path: the component names from the root directory down. -/
abbrev Path := List Bytes

/-- A file-system object. A directory holds its entries as an association list in
which the first entry of a name is the entry of that name. -/
inductive Node where
  | file (mode : Nat) (data : Bytes)
  | dir (mode : Nat) (kids : List (Bytes × Node))
  deriving Repr

/-- Owner read permission bit (0400). The process is taken to own the files and to be
unprivileged. -/
def ownerRead (mode : Nat) : Bool := mode / 256 % 2 = 1

/-- Owner write permission bit (0200). -/
def ownerWrite (mode : Nat) : Bool := mode / 128 % 2 = 1

/-- Owner search permission bit (0100). -/
def ownerExec (mode : Nat) : Bool := mode / 64 % 2 = 1

/-- The entry called `name` of a directory: the first one of that name. -/
def getKid (name : Bytes) : List (Bytes × Node) → Option Node
  | [] => none
  | (k, v) :: rest => if name = k then some v else getKid name rest

/-- The object a path names, if any. -/
def lookup : Node → Path → Option Node
  | n, [] => some n
  | .file _ _, _ :: _ => none
  | .dir _ kids, name :: rest =>
    match getKid name kids with
    | none => none
    | some k => lookup k rest

/-- Replace the first entry called `name` by `n`. -/
def setKid (name : Bytes) (n : Node) : List (Bytes × Node) → List (Bytes × Node)
  | [] => []
  | (k, v) :: rest => if name = k then (k, n) :: rest else (k, v) :: setKid name n rest

/-- Apply `f` to the object a path names; nothing changes when the path names none. -/
def modifyAt (f : Node → Node) : Node → Path → Node
  | n, [] => f n
  | .file m d, _ :: _ => .file m d
  | .dir m kids, name :: rest =>
    match getKid name kids with
    | none => .dir m kids
    | some k => .dir m (setKid name (modifyAt f k rest) kids)

/-- What a path shows of the object it names: a file's permissions and content, a
directory's permissions and the names listed in it. -/
inductive Entry where
  | file (mode : Nat) (data : Bytes)
  | dir (mode : Nat) (names : List Bytes)
  deriving DecidableEq, Repr

/-- The entry a node shows. -/
def Node.entry : Node → Entry
  | .file m d => .file m d
  | .dir m kids => .dir m (kids.map Prod.fst)

/-- The entry at a path, if the path names an object. -/
def entryAt (fs : Node) (q : Path) : Option Entry := (lookup fs q).map Node.entry

/-- What `os.Lstat` reports of an object. -/
structure FileInfo where
  name : Bytes
  isDir : Bool
  mode : Nat
  deriving DecidableEq, Repr

/-- The base name of a resolved path: its last component (`/` for the root). -/
def baseName (path : Path) : Bytes := path.getLast?.getD (ascii "/")

/-- The `FileInfo` of a node reached by `path`: `Name()`, `IsDir()` and the permission
bits. -/
def infoOf (path : Path) : Node → FileInfo
  | .file m _ => ⟨baseName path, false, m⟩
  | .dir m _ => ⟨baseName path, true, m⟩

/-- The permission bits of the object at a path, if the path names one. -/
def modeAt (fs : Node) (path : Path) : Option Nat :=
  match lookup fs path with
  | some (.file m _) => some m
  | some (.dir m _) => some m
  | none => none

/-- Model of `os.Lstat` on a resolved path. -/
def Lstat (fs : Node) (path : Path) : Except Err FileInfo :=
  match lookup fs path with
  | none => .error .notExist
  | some n => .ok (infoOf path n)

/-- Model of `os.ReadFile`. -/
def ReadFile (fs : Node) (path : Path) : Except Err Bytes :=
  match lookup fs path with
  | none => .error .notExist
  | some (.dir _ _) => .error .isDirectory
  | some (.file mode data) => if ownerRead mode then .ok data else .error .permission

/-- Model of `os.WriteFile(name, data, perm)`: an existing file is truncated and
written without changing its permissions; a missing one is created with `perm`
(the umask is not modelled). -/
def WriteFile (fs : Node) (path : Path) (data : Bytes) (perm : Nat) : Option Err × Node :=
  match lookup fs path with
  | some (.file mode _) =>
    if ownerWrite mode then (none, modifyAt (fun _ => .file mode data) fs path)
    else (some .permission, fs)
  | some (.dir _ _) => (some .isDirectory, fs)
  | none =>
    match path.getLast?, lookup fs path.dropLast with
    | some name, some (.dir m kids) =>
      if ownerWrite m then
        (none, modifyAt (fun _ => .dir m (kids ++ [(name, .file perm data)])) fs path.dropLast)
      else (some .permission, fs)
    | _, _ => (some .notExist, fs)

/-- Byte-wise lexical order of names (the order of `sort.Strings`). -/
def bytesLe : Bytes → Bytes → Bool
  | [], _ => true
  | _ :: _, [] => false
  | a :: as, b :: bs => decide (a < b) || (decide (a = b) && bytesLe as bs)

/-- Model of `filepath.readDirNames`: the names in a directory, sorted. -/
def readDirNames (fs : Node) (path : Path) : Except Err (List Bytes) :=
  match lookup fs path with
  | some (.dir mode kids) =>
    if ownerRead mode then
      .ok (((kids.map Prod.fst).dedup).insertionSort (fun a b => bytesLe a b = true))
    else .error .permission
  | _ => .error .notExist

/-- The number of directory levels below and including a node. -/
def Node.height : Node → Nat
  | .file _ _ => 0
  | .dir _ kids => heightKids kids + 1
where
  /-- The largest height among the entries of a directory. -/
  heightKids : List (Bytes × Node) → Nat
    | [] => 0
    | (_, n) :: rest => max n.height (heightKids rest)

/-! ## `main.go`: the rewriter -/

/-- Model of `replaceInFile` (main.go:101-110). -/
def replaceInFile (fs : Node) (filePath : Path) (oldString newString : Bytes) :
    Option Err × Node :=
  match ReadFile fs filePath with
  | .error err => (some err, fs)
  | .ok read =>
    let newContents := Replace read oldString newString (-1)
    WriteFile fs filePath newContents 0

/-- The type of the function `filepath.Walk` calls for each object (`filepath.WalkFunc`),
acting on the file system. -/
abbrev WalkFunc := Path → Option FileInfo → Option Err → Node → Option Err × Node

/-- The loop of `filepath.walk` over the names of a directory; `walkKid` is the
recursive call. -/
def walkNames (walkKid : Path → FileInfo → Node → Option Err × Node) (fn : WalkFunc)
    (path : Path) : List Bytes → Node → Option Err × Node
  | [], fs => (none, fs)
  | name :: rest, fs =>
    let filename := path ++ [name]
    match Lstat fs filename with
    | .error err =>
      match fn filename none (some err) fs with
      | (some err1, fs1) => (some err1, fs1)
      | (none, fs1) => walkNames walkKid fn path rest fs1
    | .ok fileInfo =>
      match walkKid filename fileInfo fs with
      | (some err1, fs1) => (some err1, fs1)
      | (none, fs1) => walkNames walkKid fn path rest fs1

/-- Model of `filepath.walk` (the recursive descent). The first argument bounds the
depth of the descent; `Walk` supplies the height of the tree. The function passed by
`replaceImportsInDir` never returns `SkipDir` or `SkipAll`, so those branches are
left out. -/
def walk (fn : WalkFunc) : Nat → Path → FileInfo → Node → Option Err × Node
  | 0, _, _, fs => (some .depth, fs)
  | fuel + 1, path, info, fs =>
    if !info.isDir then fn path (some info) none fs
    else
      match readDirNames fs path with
      | .error err => fn path (some info) (some err) fs
      | .ok names =>
        match fn path (some info) none fs with
        | (some err1, fs1) => (some err1, fs1)
        | (none, fs1) => walkNames (walk fn fuel) fn path names fs1

/-! ## Path strings -/

/-- The segments of a path string between its slashes. -/
def splitSlash : Bytes → List Bytes
  | [] => [[]]
  | c :: cs =>
    if c = 47 then [] :: splitSlash cs
    else
      match splitSlash cs with
      | [] => [[c]]
      | seg :: segs => (c :: seg) :: segs

/-- One step of path resolution: an empty segment and `.` stay, `..` goes up, a name
goes down. -/
def stepPath (acc : Path) (seg : Bytes) : Path :=
  if seg = [] ∨ seg = ascii "." then acc
  else if seg = ascii ".." then acc.dropLast
  else acc ++ [seg]

/-- The resolved path a path string names for a process whose working directory is
`cwd`. The empty string names nothing (`ENOENT`). Resolution is lexical: `..` and a
trailing slash are not checked against the tree. -/
def resolve (cwd : Path) (s : Bytes) : Option Path :=
  if s = [] then none
  else some ((splitSlash s).foldl stepPath (if s.head? = some 47 then [] else cwd))

/-- Model of `filepath.Walk(root, fn)`. The paths handed to `fn` are the resolved
paths of the strings `filepath.Join` builds from `root`. -/
def Walk (cwd : Path) (root : Bytes) (fn : WalkFunc) (fs : Node) : Option Err × Node :=
  match resolve cwd root with
  | none => fn [] none (some .notExist) fs
  | some rootPath =>
    match Lstat fs rootPath with
    | .error err => fn rootPath none (some err) fs
    | .ok info => walk fn (fs.height + 1) rootPath info fs

/-- The names `replaceImportsInDir` rewrites: those ending in `.go` or `.mod`. -/
def sourceName (name : Bytes) : Bool :=
  HasSuffix name (ascii ".go") || HasSuffix name (ascii ".mod")

/-- The function `replaceImportsInDir` passes to `filepath.Walk` (main.go:113-125).
`filepath.Walk` passes a nil `info` only together with an error. -/
def replaceImportsFn (oldImport newImport : Bytes) : WalkFunc :=
  fun path info err fs =>
    match err with
    | some e => (some e, fs)
    | none =>
      match info with
      | none => (none, fs)
      | some info =>
        if !info.isDir && sourceName info.name then
          replaceInFile fs path oldImport newImport
        else (none, fs)

/-- Model of `replaceImportsInDir` (main.go:112-126), for a process whose working
directory is `cwd`. -/
def replaceImportsInDir (cwd : Path) (dir oldImport newImport : Bytes) (fs : Node) :
    Option Err × Node :=
  Walk cwd dir (replaceImportsFn oldImport newImport) fs

/-! ## Removal -/

/-- Whether `os.RemoveAll` can remove a node: a non-empty directory must be writable
and searchable, and so on below it. -/
def Node.removable : Node → Bool
  | .file _ _ => true
  | .dir m kids => kids.isEmpty || (ownerWrite m && ownerExec m && removableKids kids)
where
  /-- Whether every entry of a directory can be removed. -/
  removableKids : List (Bytes × Node) → Bool
    | [] => true
    | (_, n) :: rest => n.removable && removableKids rest

/-- Model of `os.RemoveAll` on a resolved path: removes the object and everything below
it; succeeds when there is none. A removal that fails is taken to remove nothing. -/
def RemoveAllAt (fs : Node) (path : Path) : Option Err × Node :=
  match path.getLast? with
  | none => (some .invalid, fs)
  | some name =>
    match lookup fs path, lookup fs path.dropLast with
    | some n, some (.dir m kids) =>
      if ownerWrite m && ownerExec m && n.removable then
        (none, modifyAt (fun _ => .dir m (kids.filter (fun kv => decide (kv.1 ≠ name)))) fs
          path.dropLast)
      else (some .permission, fs)
    | _, _ => (none, fs)

/-! ## The process: file system, working directory, and what it has done -/

/-- The calls `run` makes to the outside, as they happen. -/
inductive Event where
  | clone (path url : Bytes) (cwd : Path)
  | walk (root : Bytes) (cwd : Path)
  | removeAll (path : Bytes) (cwd : Path)
  | exec (name : String) (args : List String) (cwd : Path)
  | chdir (dir : Bytes) (cwd : Path)
  deriving DecidableEq, Repr

/-- The state `run` acts on. `trace` lists the outside calls made so far, each with the
working directory it was made in. -/
structure World where
  fs : Node
  cwd : Path
  trace : List Event

/-- The external tools: `git.PlainCloneContext` of go-git and the commands started
with `exec.CommandContext(...).Run()`. Each acts on the file system, knowing the
working directory of the process, and may fail; a failing tool may leave changes. -/
structure Tools where
  PlainClone : (path url : Bytes) → (cwd : Path) → Node → Option Err × Node
  exec : (name : String) → (args : List String) → (cwd : Path) → Node → Option Err × Node

/-- The options `run` reads (`opts.RepoURL`, `opts.Project`, `opts.Dir`); `Env` and
`LogLevel` only configure the logger. -/
structure Opts where
  RepoURL : Bytes
  Project : Bytes
  Dir : Bytes

/-- The call `git.PlainCloneContext(ctx, dir, false, &git.CloneOptions{URL: ...})`. -/
def PlainCloneContext (T : Tools) (path url : Bytes) (w : World) : Option Err × World :=
  let r := T.PlainClone path url w.cwd w.fs
  (r.1, { w with fs := r.2, trace := w.trace ++ [.clone path url w.cwd] })

/-- The call `replaceImportsInDir(dir, oldImport, newImport)` made by the process. -/
def replaceImports (dir oldImport newImport : Bytes) (w : World) : Option Err × World :=
  let r := replaceImportsInDir w.cwd dir oldImport newImport w.fs
  (r.1, { w with fs := r.2, trace := w.trace ++ [.walk dir w.cwd] })

/-- The call `os.RemoveAll(path)`. -/
def RemoveAll (path : Bytes) (w : World) : Option Err × World :=
  let r : Option Err × Node :=
    match resolve w.cwd path with
    | none => (none, w.fs)
    | some p => RemoveAllAt w.fs p
  (r.1, { w with fs := r.2, trace := w.trace ++ [.removeAll path w.cwd] })

/-- The call `exec.CommandContext(ctx, name, args...).Run()`: the command runs in the
working directory of the process. -/
def Run (T : Tools) (name : String) (args : List String) (w : World) : Option Err × World :=
  let r := T.exec name args w.cwd w.fs
  (r.1, { w with fs := r.2, trace := w.trace ++ [.exec name args w.cwd] })

/-- The call `os.Chdir(dir)`. -/
def Chdir (dir : Bytes) (w : World) : Option Err × World :=
  let w1 := { w with trace := w.trace ++ [.chdir dir w.cwd] }
  match resolve w.cwd dir with
  | none => (some .notExist, w1)
  | some p =>
    match lookup w.fs p with
    | some (.dir m _) =>
      if ownerExec m then (none, { w1 with cwd := p }) else (some .permission, w1)
    | _ => (some .notExist, w1)

/-! ## `main.go`: `run` -/

/-- The local `oldImport` of `run` (main.go:67). -/
def oldImport (opts : Opts) : Bytes := Replace opts.RepoURL (ascii "https://") [] 1

/-- The local `newImport` of `run` (main.go:68). -/
def newImport (opts : Opts) : Bytes :=
  Replace (oldImport opts) (ascii "boilerplate") opts.Project 1

/-- Model of `run` (main.go:54-99). Logging and console output are left out. -/
def run (T : Tools) (opts : Opts) (w : World) : Option Err × World :=
  let dir := opts.Dir ++ opts.Project
  match PlainCloneContext T dir opts.RepoURL w with
  | (some err, w1) => (some (.wrap "clone failed" err), w1)
  | (none, w1) =>
    match replaceImports dir (oldImport opts) (newImport opts) w1 with
    | (some err, w2) => (some (.wrap "replace imports failed" err), w2)
    | (none, w2) =>
      match RemoveAll (dir ++ ascii "/.git") w2 with
      | (some err, w3) => (some (.wrap "remove .git failed" err), w3)
      | (none, w3) =>
        match Run T "git" ["init"] w3 with
        | (some err, w4) => (some (.wrap "git init failed" err), w4)
        | (none, w4) =>
          match Chdir dir w4 with
          | (some err, w5) => (some (.wrap "chdir failed" err), w5)
          | (none, w5) =>
            match Run T "go" ["mod", "tidy"] w5 with
            | (some err, w6) => (some (.wrap "go mod tidy failed" err), w6)
            | (none, w6) => (none, w6)

/-! ## A stand-in for the tools, to run the model on concrete inputs -/

/-- The tree a clone of the sample template leaves in the target directory. -/
def sampleTemplate : Node :=
  .dir 0o755 [
    (ascii ".git", .dir 0o755 [(ascii "HEAD", .file 0o644 (ascii "ref: refs/heads/main"))]),
    (ascii "go.mod", .file 0o644 (ascii "module github.com/ravilushqa/boilerplate")),
    (ascii "main.go", .file 0o644 (ascii "import \"github.com/ravilushqa/boilerplate/pkg\"")),
    (ascii "README.md", .file 0o644 (ascii "see github.com/ravilushqa/boilerplate"))]

/-- Sample tools. The clone fills an existing empty target directory (or creates it in
an existing parent) with `sampleTemplate`; `git init` creates an empty `.git` in the
working directory unless there is one; `go mod tidy` finds nothing to change. -/
def sampleTools : Tools where
  PlainClone := fun path _ cwd fs =>
    match resolve cwd path with
    | none => (some .notExist, fs)
    | some p =>
      match lookup fs p with
      | some (.dir _ []) => (none, modifyAt (fun _ => sampleTemplate) fs p)
      | some _ => (some (.tool "repository already exists"), fs)
      | none =>
        match p.getLast?, lookup fs p.dropLast with
        | some name, some (.dir m kids) =>
          (none, modifyAt (fun _ => .dir m (kids ++ [(name, sampleTemplate)])) fs p.dropLast)
        | _, _ => (some .notExist, fs)
  exec := fun name args cwd fs =>
    if name = "git" ∧ args = ["init"] then
      match lookup fs cwd with
      | some (.dir m kids) =>
        if (getKid (ascii ".git") kids).isSome then (none, fs)
        else (none, modifyAt (fun _ => .dir m (kids ++ [(ascii ".git", .dir 0o755 [])])) fs cwd)
      | _ => (some .notExist, fs)
    else if name = "go" ∧ args = ["mod", "tidy"] then (none, fs)
    else (some (.tool "executable file not found"), fs)

/-- A sample machine: `/work` holds an empty directory `app`. -/
def sampleFs : Node :=
  .dir 0o755 [(ascii "work", .dir 0o755 [(ascii "app", .dir 0o755 [])])]

/-! ## Overlap of two strings -/

/-- Two byte strings agree wherever both have a byte. -/
def agree : Bytes → Bytes → Bool
  | a :: as, b :: bs => decide (a = b) && agree as bs
  | _, _ => true

/-- Some non-empty end of `old`, laid over the start of `new`, agrees with it, or the
other way round: an occurrence of `old` could then overlap a copy of `new`. -/
def overlaps (old new : Bytes) : Bool :=
  old.tails.any (fun t => !t.isEmpty && agree t new) ||
    new.tails.any (fun t => !t.isEmpty && agree t old)

/-! ## What the rewriter is to make of the tree -/

/-- What the rewriter makes of the entry at path `q`: the content of a file whose name
ends in `.go` or `.mod` is replaced, anything else stays. -/
def rewEntry (old new : Bytes) (q : Path) : Option Entry → Option Entry
  | some (.file m d) =>
    if sourceName (baseName q) then some (.file m (Replace d old new (-1)))
    else some (.file m d)
  | e => e

/-- Partial rewrite: `fs1` shows what `fs` shows, except that entries at paths in `S`
may have been rewritten. -/
def Part (old new : Bytes) (S : Path → Prop) (fs fs1 : Node) : Prop :=
  ∀ q, entryAt fs1 q = entryAt fs q ∨ (S q ∧ entryAt fs1 q = rewEntry old new q (entryAt fs q))

/-- The statement proved of `walk` at a path `p`: it rewrites entries under `p` only,
all of them when it succeeds, and the depth bound is not what stops it. -/
def WalkOk (old new : Bytes) (p : Path) (fs : Node) (r : Option Err × Node) : Prop :=
  Part old new (fun q => p <+: q) fs r.2 ∧
  (r.1 = none → ∀ q, p <+: q → entryAt r.2 q = rewEntry old new q (entryAt fs q)) ∧
  r.1 ≠ some .depth

/-- The statement proved of the loop over the names of the directory `p`. -/
def NamesOk (old new : Bytes) (p : Path) (ns : List Bytes) (fs : Node)
    (r : Option Err × Node) : Prop :=
  Part old new (fun q => ∃ name ∈ ns, p ++ [name] <+: q) fs r.2 ∧
  (r.1 = none → ∀ name ∈ ns, ∀ q, p ++ [name] <+: q →
    entryAt r.2 q = rewEntry old new q (entryAt fs q)) ∧
  r.1 ≠ some .depth

/-! ## The steps of `run`, one after the other -/

/-- The target directory of `run`: `opts.Dir + opts.Project` (main.go:55). -/
def targetDir (opts : Opts) : Bytes := opts.Dir ++ opts.Project

/-- Outcome of the clone step. -/
def afterClone (T : Tools) (opts : Opts) (w : World) : Option Err × World :=
  PlainCloneContext T (targetDir opts) opts.RepoURL w

/-- Outcome of the rewrite step, run on the state the clone left. -/
def afterRewrite (T : Tools) (opts : Opts) (w : World) : Option Err × World :=
  replaceImports (targetDir opts) (oldImport opts) (newImport opts) (afterClone T opts w).2

/-- Outcome of the removal of `.git`, run on the state the rewrite left. -/
def afterRemove (T : Tools) (opts : Opts) (w : World) : Option Err × World :=
  RemoveAll (targetDir opts ++ ascii "/.git") (afterRewrite T opts w).2

/-- Outcome of `git init`, run on the state the removal left. -/
def afterInit (T : Tools) (opts : Opts) (w : World) : Option Err × World :=
  Run T "git" ["init"] (afterRemove T opts w).2

/-- Outcome of `os.Chdir`, run on the state `git init` left. -/
def afterChdir (T : Tools) (opts : Opts) (w : World) : Option Err × World :=
  Chdir (targetDir opts) (afterInit T opts w).2

/-- Outcome of `go mod tidy`, run on the state `os.Chdir` left. -/
def afterTidy (T : Tools) (opts : Opts) (w : World) : Option Err × World :=
  Run T "go" ["mod", "tidy"] (afterChdir T opts w).2

/-- No file under `target` whose name ends in `.go` or `.mod` holds an occurrence of
`old`. -/
def NoOld (old : Bytes) (target : Path) (fs : Node) : Prop :=
  ∀ q m d, target <+: q → entryAt fs q = some (.file m d) →
    sourceName (baseName q) = true → ¬ Occurs old d

/-! ## Sample inputs -/

/-- The options the program starts with when no flag is given. -/
def defaultOpts : Opts :=
  ⟨ascii "https://github.com/ravilushqa/boilerplate", ascii "new-project", ascii "./"⟩

/-- The sample machine with the process in `/work`. -/
def sampleWorld : World := ⟨sampleFs, [ascii "work"], []⟩

/-- The default template cloned under a project name that extends the template's. -/
def extendedNameOpts : Opts :=
  ⟨ascii "https://github.com/ravilushqa/boilerplate", ascii "boilerplate-v2", ascii "./"⟩

/-- The target directory given as `/work/` and `app`. -/
def inPlaceOpts : Opts :=
  ⟨ascii "https://github.com/ravilushqa/boilerplate", ascii "app", ascii "/work/"⟩

/-- The sample machine with the process started inside `/work/app`. -/
def inPlaceWorld : World := ⟨sampleFs, [ascii "work", ascii "app"], []⟩

/-- The end-to-end scenario of the specification. -/
def scenarioOpts : Opts :=
  ⟨ascii "https://example.com/org/boilerplate", ascii "acme-service", ascii "/tmp/"⟩

/-- A template whose base name is not `boilerplate`. -/
def otherTemplateOpts : Opts :=
  ⟨ascii "https://example.com/org/template", ascii "acme-service", ascii "/tmp/"⟩

/-- A template reached over plain HTTP. -/
def httpOpts : Opts :=
  ⟨ascii "http://example.com/org/boilerplate", ascii "acme-service", ascii "/tmp/"⟩

/-- A directory with one source file that names a template twice, once as part of a
longer path, and one text file. -/
def pairFs : Node :=
  .dir 0o755 [
    (ascii "a.go", .file 0o640 (ascii "x/tmpl-kit x/tmpl")),
    (ascii "notes.txt", .file 0o644 (ascii "x/tmpl"))]

/-- A target directory, `/work`, that exists and is not empty: the sample clone fails. -/
def occupiedOpts : Opts :=
  ⟨ascii "https://github.com/ravilushqa/boilerplate", ascii "work", ascii "/"⟩

/-! ## Symbolic links -/

/-- A file system with symbolic links. A symbolic link is an entry of its directory
like any other and a non-directory for `os.Lstat`: the tree holds it as a
non-directory node, and `links` gives, for the path of each link, the resolved path
its target names. -/
structure Linked where
  tree : Node
  links : List (Path × Path)

/-- The target `links` records for the path `p`, if any. -/
def getLink (p : Path) : List (Path × Path) → Option Path
  | [] => none
  | (k, t) :: rest => if p = k then some t else getLink p rest

/-- The target of the symbolic link at `p`, if `p` is one. -/
def linkAt (fs : Linked) (p : Path) : Option Path :=
  match lookup fs.tree p with
  | some (.file _ _) => getLink p fs.links
  | _ => none

/-- The first symbolic link met on the way down from `acc` along `rest`: its target
and what remains of the path behind it. -/
def firstLink (fs : Linked) : Path → List Bytes → Option (Path × List Bytes)
  | _, [] => none
  | acc, c :: rest =>
    match linkAt fs (acc ++ [c]) with
    | some t => some (t, rest)
    | none => firstLink fs (acc ++ [c]) rest

/-- The path a path names once every symbolic link on it, the last component
included, is followed; `none` when more links are met than `hops` allows (`ELOOP`). -/
def realpath (fs : Linked) : Nat → Path → Option Path
  | 0, _ => none
  | hops + 1, p =>
    match firstLink fs [] p with
    | none => some p
    | some (t, rest) => realpath fs hops (t ++ rest)

/-- The number of path resolutions that follow a link before the system gives up: 40
links, as on Linux. -/
def maxHops : Nat := 41

/-- The path a path names for `os.Lstat`: the links above the last component are
followed, the last component is not. -/
def lstatPath (fs : Linked) (p : Path) : Option Path :=
  match p.getLast? with
  | none => some []
  | some base => (realpath fs maxHops p.dropLast).map (· ++ [base])

namespace Links

/-- Model of `os.ReadFile` in the presence of symbolic links: the links on the path
are followed. -/
def ReadFile (fs : Linked) (path : Path) : Except Err Bytes :=
  match realpath fs maxHops path with
  | none => .error .loop
  | some q => Servigo.ReadFile fs.tree q

/-- Model of `os.WriteFile` in the presence of symbolic links: the links on the path
are followed, and the file they lead to is written (or created). -/
def WriteFile (fs : Linked) (path : Path) (data : Bytes) (perm : Nat) :
    Option Err × Linked :=
  match realpath fs maxHops path with
  | none => (some .loop, fs)
  | some q => ((Servigo.WriteFile fs.tree q data perm).1,
      { fs with tree := (Servigo.WriteFile fs.tree q data perm).2 })

/-- Model of `replaceInFile` (main.go:101-110) in the presence of symbolic links. -/
def replaceInFile (fs : Linked) (filePath : Path) (oldString newString : Bytes) :
    Option Err × Linked :=
  match ReadFile fs filePath with
  | .error err => (some err, fs)
  | .ok read =>
    let newContents := Replace read oldString newString (-1)
    WriteFile fs filePath newContents 0

/-- The function `replaceImportsInDir` passes to `filepath.Walk` (main.go:113-125), in
the presence of the symbolic links `links`. The rewriter changes no link, so the
walk carries the tree alone. -/
def replaceImportsFn (links : List (Path × Path)) (oldImport newImport : Bytes) : WalkFunc :=
  fun path info err tree =>
    match err with
    | some e => (some e, tree)
    | none =>
      match info with
      | none => (none, tree)
      | some info =>
        if !info.isDir && sourceName info.name then
          ((replaceInFile ⟨tree, links⟩ path oldImport newImport).1,
            (replaceInFile ⟨tree, links⟩ path oldImport newImport).2.tree)
        else (none, tree)

/-- The resolved root of a walk, as `os.Lstat` sees it: the links above its last
component are followed. -/
def walkRoot (fs : Linked) (cwd : Path) (root : Bytes) : Option Path :=
  match resolve cwd root with
  | none => none
  | some rootPath => lstatPath fs rootPath

/-- Model of `filepath.Walk(root, fn)` in the presence of symbolic links. The walk
uses `os.Lstat`, so it meets a symbolic link as a non-directory entry and does not
descend through it; below the root the paths it builds cross real directories only. -/
def Walk (fs : Linked) (cwd : Path) (root : Bytes) (fn : WalkFunc) : Option Err × Node :=
  match resolve cwd root with
  | none => fn [] none (some .notExist) fs.tree
  | some rootPath =>
    match lstatPath fs rootPath with
    | none => fn rootPath none (some .loop) fs.tree
    | some canon =>
      match Lstat fs.tree canon with
      | .error err => fn canon none (some err) fs.tree
      | .ok info => walk fn (fs.tree.height + 1) canon info fs.tree

/-- Model of `replaceImportsInDir` (main.go:112-126) in the presence of symbolic
links. -/
def replaceImportsInDir (cwd : Path) (dir oldImport newImport : Bytes) (fs : Linked) :
    Option Err × Linked :=
  ((Walk fs cwd dir (replaceImportsFn fs.links oldImport newImport)).1,
    { fs with tree := (Walk fs cwd dir (replaceImportsFn fs.links oldImport newImport)).2 })

end Links

/-- A directory in which `x.go` is a symbolic link to the text file `notes.txt`. -/
def linkedFs : Linked :=
  ⟨.dir 0o755 [
      (ascii "notes.txt", .file 0o644 (ascii "x/tmpl")),
      (ascii "x.go", .file 0o777 (ascii "notes.txt"))],
    [([ascii "x.go"], [ascii "notes.txt"])]⟩

/-- A directory with a source file, a text file and a symbolic link `latest` to the
text file. -/
def harmlessLinkFs : Linked :=
  ⟨.dir 0o755 [
      (ascii "a.go", .file 0o640 (ascii "x/tmpl-kit x/tmpl")),
      (ascii "latest", .file 0o777 (ascii "notes.txt")),
      (ascii "notes.txt", .file 0o644 (ascii "x/tmpl"))],
    [([ascii "latest"], [ascii "notes.txt"])]⟩

/-! ## Facts about the string functions -/

theorem HasPrefix_iff (s pre : Bytes) : HasPrefix s pre = true ↔ pre <+: s := by
  unfold HasPrefix
  rw [List.prefix_iff_eq_take]
  constructor
  · intro h
    simp only [Bool.and_eq_true, decide_eq_true_eq] at h
    exact h.2.symm
  · intro h
    simp only [Bool.and_eq_true, decide_eq_true_eq]
    refine ⟨?_, h.symm⟩
    have := congrArg List.length h
    simp only [List.length_take] at this
    omega

theorem Index_nil_left (old : Bytes) (h : old ≠ []) : Index [] old = none := by
  unfold Index
  have : HasPrefix [] old = false := by
    cases hp : HasPrefix [] old with
    | false => rfl
    | true =>
      rw [HasPrefix_iff] at hp
      exact absurd (List.prefix_nil.mp hp) h
  simp [this]

theorem Index_cons (c : Nat) (cs old : Bytes) :
    Index (c :: cs) old =
      if old <+: c :: cs then some 0 else (Index cs old).map (· + 1) := by
  rw [Index]
  by_cases hp : old <+: c :: cs
  · simp [hp, (HasPrefix_iff _ _).mpr hp]
  · have : HasPrefix (c :: cs) old = false := by
      cases h : HasPrefix (c :: cs) old with
      | false => rfl
      | true => exact absurd ((HasPrefix_iff _ _).mp h) hp
    simp [hp, this]

theorem scan_drop (old new : Bytes) (k : Nat) (s : Bytes) :
    scan old new k s = scan old new 0 (s.drop k) := by
  induction s generalizing k with
  | nil => cases k <;> simp [scan]
  | cons c cs ih =>
    cases k with
    | zero => simp
    | succ k => simp only [scan, List.drop_succ_cons]; exact ih k

theorem scan_at_occurrence (old new s : Bytes) (h : old ≠ []) (hp : old <+: s) :
    scan old new 0 s = new ++ scan old new 0 (s.drop old.length) := by
  cases s with
  | nil => exact absurd (List.prefix_nil.mp hp) h
  | cons c cs =>
    simp only [scan, hp, if_true]
    rw [scan_drop]
    congr 2
    cases old with
    | nil => exact absurd rfl h
    | cons o os => simp

theorem Index_some_bound (old : Bytes) :
    ∀ (s : Bytes) (i : Nat), Index s old = some i → i + old.length ≤ s.length := by
  intro s
  induction s with
  | nil =>
    intro i h
    unfold Index at h
    by_cases hp : HasPrefix [] old = true
    · have := List.prefix_nil.mp ((HasPrefix_iff _ _).mp hp)
      simp [hp] at h
      subst h; subst this; simp
    · simp [hp] at h
  | cons c cs ih =>
    intro i h
    rw [Index_cons] at h
    by_cases hp : old <+: c :: cs
    · simp only [hp, if_true, Option.some.injEq] at h
      subst h
      simpa using hp.length_le
    · simp only [hp, if_false, Option.map_eq_some'] at h
      obtain ⟨i', hi', rfl⟩ := h
      have := ih i' hi'
      simp only [List.length_cons]
      omega

theorem scan_of_Index_none (old new : Bytes) (_h : old ≠ []) :
    ∀ s : Bytes, Index s old = none → scan old new 0 s = s := by
  intro s
  induction s with
  | nil => intro _; rfl
  | cons c cs ih =>
    intro hi
    rw [Index_cons] at hi
    by_cases hp : old <+: c :: cs
    · simp [hp] at hi
    · simp only [hp, if_false, Option.map_eq_none'] at hi
      simp only [scan, hp, if_false, ih hi]

theorem scan_of_Index_some (old new : Bytes) (h : old ≠ []) :
    ∀ (s : Bytes) (i : Nat), Index s old = some i →
      scan old new 0 s = s.take i ++ new ++ scan old new 0 (s.drop (i + old.length)) := by
  intro s
  induction s with
  | nil => intro i hi; rw [Index_nil_left old h] at hi; cases hi
  | cons c cs ih =>
    intro i hi
    rw [Index_cons] at hi
    by_cases hp : old <+: c :: cs
    · simp only [hp, if_true, Option.some.injEq] at hi
      subst hi
      simpa using scan_at_occurrence old new (c :: cs) h hp
    · simp only [hp, if_false, Option.map_eq_some'] at hi
      obtain ⟨i', hi', rfl⟩ := hi
      have e : i' + 1 + old.length = (i' + old.length) + 1 := by omega
      simp only [scan, hp, if_false, ih i' hi', List.take_succ_cons, e, List.drop_succ_cons,
        List.cons_append]

theorem Index_isSome_iff (old : Bytes) :
    ∀ s : Bytes, (Index s old).isSome = true ↔ Occurs old s := by
  intro s
  induction s with
  | nil =>
    unfold Index Occurs
    by_cases hp : HasPrefix [] old = true
    · simp only [hp, if_true, Option.isSome_some, true_iff]
      exact ((HasPrefix_iff _ _).mp hp).isInfix
    · have hn : ¬ old <+: [] := fun h => hp ((HasPrefix_iff _ _).mpr h)
      simp only [hp]
      simp only [Bool.false_eq_true, if_false, Option.isSome_none, false_iff]
      intro h
      exact hn (by rw [List.infix_nil] at h; subst h; exact List.prefix_refl _)
  | cons c cs ih =>
    rw [Index_cons]
    unfold Occurs at *
    by_cases hp : old <+: c :: cs
    · simp only [hp, if_true, Option.isSome_some, true_iff]
      exact hp.isInfix
    · simp only [hp, if_false, Option.isSome_map']
      rw [ih, List.infix_cons_iff]
      simp [hp]


theorem DecodeRuneInString_pos (s : Bytes) (h : s ≠ []) : 1 ≤ DecodeRuneInString s := by
  cases s with
  | nil => exact absurd rfl h
  | cons s0 rest =>
    unfold DecodeRuneInString
    simp only
    repeat' split
    all_goals omega

theorem countLoop_acc (old : Bytes) :
    ∀ (fuel : Nat) (s : Bytes) (n : Nat),
      countLoop old fuel s n = n + countLoop old fuel s 0 := by
  intro fuel
  induction fuel with
  | zero => intro s n; simp [countLoop]
  | succ fuel ih =>
    intro s n
    simp only [countLoop]
    cases Index s old with
    | none => simp
    | some i =>
      simp only
      rw [ih _ (n + 1), ih _ (0 + 1)]
      omega

theorem runeCountLoop_acc :
    ∀ (fuel : Nat) (s : Bytes) (n : Nat),
      runeCountLoop fuel s n = n + runeCountLoop fuel s 0 := by
  intro fuel
  induction fuel with
  | zero => intro s n; simp [runeCountLoop]
  | succ fuel ih =>
    intro s n
    simp only [runeCountLoop]
    by_cases hs : s = []
    · simp [hs]
    · simp only [hs, if_false]
      rw [ih _ (n + 1), ih _ (0 + 1)]
      omega

/-- For a non-empty `old`, the counting loop followed by the replacement loop computes
the left-to-right scan. -/
theorem replaceLoop_count_eq_scan (old new : Bytes) (h : old ≠ []) :
    ∀ (fuel : Nat) (s : Bytes) (i : Nat), s.length < fuel →
      replaceLoop old new (countLoop old fuel s 0) i s = scan old new 0 s := by
  have hl : old.length ≠ 0 := fun e => h (List.length_eq_zero.mp e)
  intro fuel
  induction fuel with
  | zero => intro s i hlt; omega
  | succ fuel ih =>
    intro s i hlt
    simp only [countLoop]
    cases hi : Index s old with
    | none =>
      simp only [replaceLoop]
      exact (scan_of_Index_none old new h s hi).symm
    | some d =>
      simp only
      rw [countLoop_acc, Nat.add_comm (0 + 1)]
      have hb := Index_some_bound old s d hi
      have hpos : 0 < old.length := Nat.pos_of_ne_zero hl
      simp only [Nat.zero_add, replaceLoop, hl, if_false, hi]
      rw [ih _ (i + 1) (by simp only [List.length_drop]; omega)]
      exact (scan_of_Index_some old new h s d hi).symm

theorem sequences_flatten :
    ∀ (fuel : Nat) (s : Bytes), s.length ≤ fuel → (sequences fuel s).flatten = s := by
  intro fuel
  induction fuel with
  | zero =>
    intro s hs
    have : s = [] := List.length_eq_zero.mp (Nat.le_zero.mp hs)
    simp [sequences, this]
  | succ fuel ih =>
    intro s hs
    simp only [sequences]
    by_cases he : s = []
    · simp [he]
    · simp only [he, if_false, List.flatten_cons]
      have hp := DecodeRuneInString_pos s he
      have hlen : 0 < s.length := List.length_pos.mpr he
      rw [ih _ (by simp only [List.length_drop]; omega), List.take_append_drop]

/-- For the empty `old`, the replacement loop behind its first round, run for one round
per rune, writes each UTF-8 sequence followed by `new`. -/
theorem replaceLoop_empty_eq (new : Bytes) :
    ∀ (fuel : Nat) (s : Bytes) (i : Nat), 0 < i → s.length ≤ fuel →
      replaceLoop [] new (runeCountLoop fuel s 0) i s =
        ((sequences fuel s).map (· ++ new)).flatten := by
  intro fuel
  induction fuel with
  | zero =>
    intro s i _ hs
    have : s = [] := List.length_eq_zero.mp (Nat.le_zero.mp hs)
    simp [sequences, runeCountLoop, replaceLoop, this]
  | succ fuel ih =>
    intro s i hi hs
    simp only [sequences, runeCountLoop]
    by_cases he : s = []
    · simp [he, replaceLoop]
    · simp only [he, if_false, List.map_cons, List.flatten_cons]
      have hp := DecodeRuneInString_pos s he
      have hlen : 0 < s.length := List.length_pos.mpr he
      rw [runeCountLoop_acc, Nat.add_comm (0 + 1)]
      simp only [Nat.zero_add, replaceLoop, List.length_nil, if_true, hi, Nat.add_zero]
      rw [ih _ (i + 1) (Nat.succ_pos _) (by simp only [List.length_drop]; omega)]

theorem scan_self (old : Bytes) (h : old ≠ []) :
    ∀ (n : Nat) (s : Bytes), s.length ≤ n → scan old old 0 s = s := by
  intro n
  induction n with
  | zero =>
    intro s hs
    have : s = [] := List.length_eq_zero.mp (Nat.le_zero.mp hs)
    simp [this, scan]
  | succ n ih =>
    intro s hs
    cases s with
    | nil => rfl
    | cons c cs =>
      by_cases hp : old <+: c :: cs
      · rw [scan_at_occurrence old old _ h hp]
        have hpos : 0 < old.length := List.length_pos.mpr h
        rw [ih _ (by simp only [List.length_drop, List.length_cons] at *; omega)]
        obtain ⟨t, ht⟩ := hp
        rw [← ht]
        simp
      · simp only [scan, hp, if_false]
        rw [ih cs (by simpa using hs)]

theorem Count_eq_zero (s old : Bytes) (h : Count s old = 0) :
    old ≠ [] ∧ Index s old = none := by
  unfold Count at h
  by_cases hl : old.length = 0
  · simp [hl] at h
  · simp only [hl, if_false, countLoop] at h
    refine ⟨fun e => hl (by simp [e]), ?_⟩
    cases hi : Index s old with
    | none => rfl
    | some d =>
      rw [hi] at h
      simp only at h
      rw [countLoop_acc] at h
      omega

/-- Refinement: `strings.Replace` with `n = -1` computes the substitution of the
specification. -/
theorem Replace_all_eq_spec (s old new : Bytes) :
    Replace s old new (-1) = replaceAllSpec s old new := by
  unfold Replace replaceAllSpec
  by_cases hon : old = new
  · subst hon
    simp only [true_or, if_true]
    by_cases he : old = []
    · subst he
      simp only [if_true, List.nil_append, List.append_nil, List.map_id']
      exact (sequences_flatten _ s (le_refl _)).symm
    · simp only [he, if_false]
      exact (scan_self old he _ s (le_refl _)).symm
  · have hneg : ¬ (old = new ∨ (-1 : Int) = 0) := by
      intro h
      rcases h with h | h
      · exact hon h
      · omega
    simp only [hneg, if_false]
    by_cases hm : Count s old = 0
    · obtain ⟨he, hi⟩ := Count_eq_zero s old hm
      simp only [hm, if_true, he, if_false]
      exact (scan_of_Index_none old new he s hi).symm
    · have hlt : ((-1 : Int) < 0 ∨ (Count s old : Int) < -1) := Or.inl (by omega)
      simp only [hm, if_false, hlt, if_true]
      by_cases he : old = []
      · subst he
        simp only [if_true]
        unfold Count RuneCountInString
        simp only [List.length_nil, if_true, replaceLoop, Nat.lt_irrefl, if_false,
          List.take_zero, List.nil_append, Nat.add_zero, List.drop_zero]
        rw [replaceLoop_empty_eq new _ s 1 Nat.one_pos (le_refl _)]
      · simp only [he, if_false]
        unfold Count
        have hl : old.length ≠ 0 := fun e => he (List.length_eq_zero.mp e)
        simp only [hl, if_false]
        exact replaceLoop_count_eq_scan old new he _ s 0 (Nat.lt_succ_self _)

theorem Index_some_split (old : Bytes) :
    ∀ (s : Bytes) (d : Nat), Index s old = some d →
      s = s.take d ++ old ++ s.drop (d + old.length) := by
  intro s
  induction s with
  | nil =>
    intro d h
    have hb := Index_some_bound old [] d h
    simp only [List.length_nil, Nat.le_zero, Nat.add_eq_zero, List.length_eq_zero] at hb
    simp [hb.2]
  | cons c cs ih =>
    intro d h
    rw [Index_cons] at h
    by_cases hp : old <+: c :: cs
    · simp only [hp, if_true, Option.some.injEq] at h
      subst h
      obtain ⟨t, ht⟩ := hp
      rw [← ht]
      simp
    · simp only [hp, if_false, Option.map_eq_some'] at h
      obtain ⟨d', hd', rfl⟩ := h
      have e : d' + 1 + old.length = (d' + old.length) + 1 := by omega
      have := ih d' hd'
      simp only [List.take_succ_cons, e, List.drop_succ_cons, List.cons_append]
      exact congrArg (c :: ·) this

/-- With `n = 1` and no occurrence of `old`, `strings.Replace` returns `s`. -/
theorem Replace_one_of_none (s old new : Bytes) (h : Index s old = none) :
    Replace s old new 1 = s := by
  unfold Replace
  by_cases hon : old = new ∨ (1 : Int) = 0
  · simp only [hon, if_true]
  · simp only [hon, if_false]
    have hc : Count s old = 0 := by
      unfold Count
      by_cases hl : old.length = 0
      · have : old = [] := List.length_eq_zero.mp hl
        subst this
        unfold Index at h
        simp [HasPrefix] at h
      · simp [hl, countLoop, h]
    simp [hc]

/-- With `n = 1`, `strings.Replace` replaces the first instance of a non-empty `old`. -/
theorem Replace_one_of_some (s old new : Bytes) (d : Nat) (hne : old ≠ [])
    (h : Index s old = some d) :
    Replace s old new 1 = s.take d ++ new ++ s.drop (d + old.length) := by
  unfold Replace
  by_cases hon : old = new
  · subst hon
    simp only [true_or, if_true]
    exact Index_some_split old s d h
  · have hneg : ¬ (old = new ∨ (1 : Int) = 0) := by
      intro h'
      rcases h' with h' | h'
      · exact hon h'
      · omega
    have hl : old.length ≠ 0 := fun e => hne (List.length_eq_zero.mp e)
    have hc : Count s old = 1 + countLoop old s.length (s.drop (d + old.length)) 0 := by
      unfold Count
      simp only [hl, if_false, countLoop, h]
      rw [countLoop_acc]
    have hm : ¬ Count s old = 0 := by omega
    have hr : ¬ ((1 : Int) < 0 ∨ (Count s old : Int) < 1) := by omega
    simp only [hneg, if_false, hm, hr, Int.toNat_one, replaceLoop, hl, h]

theorem agree_of_common_start (a b s : Bytes) (ha : a <+: s) (hb : b <+: s) : agree a b = true := by
  induction s generalizing a b with
  | nil =>
    rw [List.prefix_nil.mp ha]
    cases b <;> rfl
  | cons x xs ih =>
    cases a with
    | nil => cases b <;> rfl
    | cons a0 as =>
      cases b with
      | nil => rfl
      | cons b0 bs =>
        rw [List.cons_prefix_cons] at ha hb
        simp only [agree, Bool.and_eq_true, decide_eq_true_eq]
        exact ⟨ha.1.trans hb.1.symm, ih as bs ha.2 hb.2⟩

/-- A prefix of the scan's output is a prefix of the input, or one of its non-empty
ends lies over the start of a written copy of `new`. -/
theorem prefix_scan (old new : Bytes) :
    ∀ (c w : Bytes), w <+: scan old new 0 c →
      w <+: c ∨ ∃ t ∈ w.tails, t ≠ [] ∧ agree t new = true := by
  intro c
  induction c with
  | nil =>
    intro w hw
    left
    simpa [scan] using hw
  | cons x cs ih =>
    intro w hw
    cases w with
    | nil => left; exact List.nil_prefix
    | cons w0 ws =>
      by_cases hp : old <+: x :: cs
      · right
        simp only [scan, hp, if_true] at hw
        refine ⟨w0 :: ws, by simp, by simp, ?_⟩
        exact agree_of_common_start _ _ _ hw (List.prefix_append _ _)
      · simp only [scan, hp, if_false, List.cons_prefix_cons] at hw
        obtain ⟨rfl, hws⟩ := hw
        rcases ih ws hws with h | ⟨t, ht, htne, hag⟩
        · left
          exact List.cons_prefix_cons.mpr ⟨rfl, h⟩
        · right
          exact ⟨t, by simp [ht], htne, hag⟩

theorem infix_append_new (old new r : Bytes) (h : old <:+: new ++ r) :
    old <:+: r ∨ ∃ t ∈ new.tails, t ≠ [] ∧ agree t old = true := by
  induction new with
  | nil => left; simpa using h
  | cons n ns ih =>
    rw [List.cons_append, List.infix_cons_iff] at h
    rcases h with h | h
    · right
      refine ⟨n :: ns, by simp, by simp, ?_⟩
      exact agree_of_common_start _ _ _ (List.prefix_append _ _) (by simpa using h)
    · rcases ih h with h' | ⟨t, ht, htne, hag⟩
      · left; exact h'
      · right
        exact ⟨t, by simp [ht], htne, hag⟩

theorem overlaps_false_left (old new t : Bytes) (h : overlaps old new = false)
    (ht : t ∈ old.tails) (hne : t ≠ []) : agree t new = false := by
  unfold overlaps at h
  simp only [Bool.or_eq_false_iff, List.any_eq_false, Bool.and_eq_true, Bool.not_eq_true',
    List.isEmpty_eq_false, not_and, Bool.not_eq_true] at h
  exact h.1 t ht hne

theorem overlaps_false_right (old new t : Bytes) (h : overlaps old new = false)
    (ht : t ∈ new.tails) (hne : t ≠ []) : agree t old = false := by
  unfold overlaps at h
  simp only [Bool.or_eq_false_iff, List.any_eq_false, Bool.and_eq_true, Bool.not_eq_true',
    List.isEmpty_eq_false, not_and, Bool.not_eq_true] at h
  exact h.2 t ht hne

/-- When `old` and `new` cannot overlap, the scan's output holds no occurrence of
`old`. -/
theorem not_occurs_scan (old new : Bytes) (hne : old ≠ []) (hov : overlaps old new = false) :
    ∀ (c : Bytes) (k : Nat), ¬ Occurs old (scan old new k c) := by
  intro c
  induction c with
  | nil =>
    intro k h
    unfold Occurs at h
    have : scan old new k [] = [] := by cases k <;> rfl
    rw [this, List.infix_nil] at h
    exact hne h
  | cons x cs ih =>
    intro k h
    cases k with
    | succ k => exact ih k (by simpa [scan] using h)
    | zero =>
      unfold Occurs at h
      by_cases hp : old <+: x :: cs
      · simp only [scan, hp, if_true] at h
        rcases infix_append_new old new _ h with h' | ⟨t, ht, htne, hag⟩
        · exact ih _ h'
        · rw [overlaps_false_right old new t hov ht htne] at hag
          cases hag
      · have hs : scan old new 0 (x :: cs) = x :: scan old new 0 cs := by
          simp only [scan, hp, if_false]
        rw [hs, List.infix_cons_iff] at h
        rcases h with h | h
        · rw [← hs] at h
          rcases prefix_scan old new _ old h with h' | ⟨t, ht, htne, hag⟩
          · exact hp h'
          · rw [overlaps_false_left old new t hov ht htne] at hag
            cases hag
        · exact ih 0 h

theorem not_occurs_Replace (c old new : Bytes) (hne : old ≠ [])
    (hov : overlaps old new = false) : ¬ Occurs old (Replace c old new (-1)) := by
  rw [Replace_all_eq_spec]
  unfold replaceAllSpec
  simp only [hne, if_false]
  exact not_occurs_scan old new hne hov c 0

theorem Replace_of_not_occurs (c old new : Bytes) (h : ¬ Occurs old c) :
    Replace c old new (-1) = c := by
  have hi : Index c old = none := by
    cases hx : Index c old with
    | none => rfl
    | some d =>
      exact absurd ((Index_isSome_iff old c).mp (by simp [hx])) h
  have hne : old ≠ [] := by
    intro e
    subst e
    exact h List.nil_infix
  rw [Replace_all_eq_spec]
  unfold replaceAllSpec
  simp only [hne, if_false]
  exact scan_of_Index_none old new hne c hi


/-! ## Facts about the file-system tree -/

theorem getKid_setKid_same (name : Bytes) (n : Node) :
    ∀ (kids : List (Bytes × Node)) (k : Node), getKid name kids = some k →
      getKid name (setKid name n kids) = some n := by
  intro kids
  induction kids with
  | nil => intro k h; simp [getKid] at h
  | cons kv rest ih =>
    intro k h
    obtain ⟨key, v⟩ := kv
    by_cases e : name = key
    · simp [setKid, getKid, e]
    · simp only [getKid, e, if_false] at h
      simp only [setKid, getKid, e, if_false]
      exact ih k h

theorem getKid_setKid_ne (name other : Bytes) (n : Node) (hne : other ≠ name) :
    ∀ kids : List (Bytes × Node), getKid other (setKid name n kids) = getKid other kids := by
  intro kids
  induction kids with
  | nil => rfl
  | cons kv rest ih =>
    obtain ⟨key, v⟩ := kv
    by_cases e : name = key
    · subst e
      simp [setKid, getKid, hne]
    · simp only [setKid, e, if_false, getKid, ih]

theorem map_fst_setKid (name : Bytes) (n : Node) :
    ∀ kids : List (Bytes × Node), (setKid name n kids).map Prod.fst = kids.map Prod.fst := by
  intro kids
  induction kids with
  | nil => rfl
  | cons kv rest ih =>
    obtain ⟨key, v⟩ := kv
    by_cases e : name = key
    · simp [setKid, e]
    · simp [setKid, e, ih]

theorem setKid_self (name : Bytes) :
    ∀ (kids : List (Bytes × Node)) (k : Node), getKid name kids = some k →
      setKid name k kids = kids := by
  intro kids
  induction kids with
  | nil => intro k _; rfl
  | cons kv rest ih =>
    intro k h
    obtain ⟨key, v⟩ := kv
    by_cases e : name = key
    · simp only [getKid, e, if_true, Option.some.injEq] at h
      simp [setKid, e, h]
    · simp only [getKid, e, if_false] at h
      simp only [setKid, e, if_false, ih k h]

theorem getKid_mem_map (name : Bytes) :
    ∀ (kids : List (Bytes × Node)) (k : Node), getKid name kids = some k →
      name ∈ kids.map Prod.fst := by
  intro kids
  induction kids with
  | nil => intro k h; simp [getKid] at h
  | cons kv rest ih =>
    intro k h
    obtain ⟨key, v⟩ := kv
    by_cases e : name = key
    · simp [e]
    · simp only [getKid, e, if_false] at h
      simp only [List.map_cons, List.mem_cons]
      exact Or.inr (ih k h)

theorem lookup_nil (fs : Node) : lookup fs [] = some fs := by
  cases fs <;> rfl

theorem lookup_append (fs : Node) (p r : Path) :
    lookup fs (p ++ r) = (lookup fs p).bind (fun n => lookup n r) := by
  induction p generalizing fs with
  | nil => simp [lookup_nil]
  | cons name rest ih =>
    cases fs with
    | file m d => simp [lookup]
    | dir m kids =>
      simp only [List.cons_append, lookup]
      cases getKid name kids with
      | none => simp
      | some k => simpa using ih k

theorem lookup_file_below (m : Nat) (d : Bytes) (r : Path) (hr : r ≠ []) :
    lookup (.file m d) r = none := by
  cases r with
  | nil => exact absurd rfl hr
  | cons a as => rfl

theorem modifyAt_of_none (f : Node → Node) :
    ∀ (p : Path) (fs : Node), lookup fs p = none → modifyAt f fs p = fs := by
  intro p
  induction p with
  | nil => intro fs h; simp [lookup_nil] at h
  | cons name rest ih =>
    intro fs h
    cases fs with
    | file m d => rfl
    | dir m kids =>
      simp only [lookup] at h
      simp only [modifyAt]
      cases hk : getKid name kids with
      | none => rfl
      | some k =>
        rw [hk] at h
        simp only at h ⊢
        rw [ih k h, setKid_self name kids k hk]

theorem lookup_modifyAt_on (f : Node → Node) (r : Path) :
    ∀ (p : Path) (fs n : Node), lookup fs p = some n →
      lookup (modifyAt f fs p) (p ++ r) = lookup (f n) r := by
  intro p
  induction p with
  | nil =>
    intro fs n h
    rw [lookup_nil] at h
    cases h
    cases fs <;> simp [modifyAt]
  | cons name rest ih =>
    intro fs n h
    cases fs with
    | file m d => simp [lookup] at h
    | dir m kids =>
      simp only [lookup] at h
      cases hk : getKid name kids with
      | none => rw [hk] at h; cases h
      | some k =>
        rw [hk] at h
        simp only at h
        simp only [modifyAt, hk, List.cons_append, lookup, getKid_setKid_same name _ kids k hk]
        exact ih k n h

theorem entryAt_modifyAt_off (f : Node → Node) :
    ∀ (p : Path) (fs : Node) (q : Path), ¬ p <+: q →
      entryAt (modifyAt f fs p) q = entryAt fs q := by
  intro p
  induction p with
  | nil => intro fs q h; exact absurd List.nil_prefix h
  | cons name rest ih =>
    intro fs q h
    cases fs with
    | file m d => rfl
    | dir m kids =>
      simp only [modifyAt]
      cases hk : getKid name kids with
      | none => rfl
      | some k =>
        simp only
        cases q with
        | nil => simp [entryAt, lookup, Node.entry, map_fst_setKid]
        | cons other q' =>
          by_cases e : other = name
          · subst e
            have h' : ¬ rest <+: q' := fun hp => h (List.cons_prefix_cons.mpr ⟨rfl, hp⟩)
            have := ih k q' h'
            simpa [entryAt, lookup, getKid_setKid_same other _ kids k hk, hk] using this
          · simp [entryAt, lookup, getKid_setKid_ne name other _ e]

theorem modifyAt_const_self :
    ∀ (p : Path) (fs n : Node), lookup fs p = some n → modifyAt (fun _ => n) fs p = fs := by
  intro p
  induction p with
  | nil =>
    intro fs n h
    rw [lookup_nil] at h
    cases h
    cases fs <;> rfl
  | cons name rest ih =>
    intro fs n h
    cases fs with
    | file m d => rfl
    | dir m kids =>
      simp only [lookup] at h
      simp only [modifyAt]
      cases hk : getKid name kids with
      | none => rfl
      | some k =>
        rw [hk] at h
        simp only at h ⊢
        rw [ih k n h, setKid_self name kids k hk]

theorem heightKids_ge (name : Bytes) :
    ∀ (kids : List (Bytes × Node)) (k : Node), getKid name kids = some k →
      k.height ≤ Node.height.heightKids kids := by
  intro kids
  induction kids with
  | nil => intro k h; simp [getKid] at h
  | cons kv rest ih =>
    intro k h
    obtain ⟨key, v⟩ := kv
    by_cases e : name = key
    · simp only [getKid, e, if_true, Option.some.injEq] at h
      subst h
      simp [Node.height.heightKids]
    · simp only [getKid, e, if_false] at h
      have := ih k h
      simp only [Node.height.heightKids]
      omega

theorem lookup_height :
    ∀ (q : Path) (fs n : Node), lookup fs q = some n → q.length + n.height ≤ fs.height := by
  intro q
  induction q with
  | nil =>
    intro fs n h
    rw [lookup_nil] at h
    cases h
    simp
  | cons name rest ih =>
    intro fs n h
    cases fs with
    | file m d => simp [lookup] at h
    | dir m kids =>
      simp only [lookup] at h
      cases hk : getKid name kids with
      | none => rw [hk] at h; cases h
      | some k =>
        rw [hk] at h
        simp only at h
        have h1 := ih k n h
        have h2 := heightKids_ge name kids k hk
        simp only [Node.height, List.length_cons]
        omega

/-- Writing new content into an existing file changes the entry at its path and no
other. -/
theorem entryAt_setData (fs : Node) (p : Path) (m : Nat) (d d' : Bytes)
    (h : lookup fs p = some (.file m d)) (q : Path) :
    entryAt (modifyAt (fun _ => .file m d') fs p) q =
      if q = p then some (.file m d') else entryAt fs q := by
  by_cases e : q = p
  · subst e
    have := lookup_modifyAt_on (fun _ => Node.file m d') [] q fs _ h
    simp only [List.append_nil, lookup_nil] at this
    simp [entryAt, this, Node.entry]
  · simp only [e, if_false]
    by_cases hp : p <+: q
    · obtain ⟨r, rfl⟩ := hp
      have hr : r ≠ [] := by
        intro hr
        subst hr
        exact e (by simp)
      have h1 := lookup_modifyAt_on (fun _ => Node.file m d') r p fs _ h
      have h2 := lookup_append fs p r
      rw [h] at h2
      simp only [Option.some_bind] at h2
      rw [lookup_file_below m d r hr] at h2
      rw [lookup_file_below m d' r hr] at h1
      simp [entryAt, h1, h2]
    · exact entryAt_modifyAt_off _ p fs q hp

theorem replaceInFile_of_file (fs : Node) (p : Path) (m : Nat) (d old new : Bytes)
    (h : lookup fs p = some (.file m d)) :
    replaceInFile fs p old new =
      if ownerRead m = true then
        if ownerWrite m = true then
          (none, modifyAt (fun _ => .file m (Replace d old new (-1))) fs p)
        else (some .permission, fs)
      else (some .permission, fs) := by
  unfold replaceInFile ReadFile
  simp only [h]
  by_cases hr : ownerRead m = true
  · simp only [hr, if_true]
    unfold WriteFile
    simp only [h]
  · simp only [hr]
    rfl

theorem replaceInFile_of_not_file (fs : Node) (p : Path) (old new : Bytes)
    (h : ∀ m d, lookup fs p ≠ some (.file m d)) :
    ∃ e, replaceInFile fs p old new = (some e, fs) := by
  unfold replaceInFile ReadFile
  cases hl : lookup fs p with
  | none => exact ⟨_, rfl⟩
  | some n =>
    cases n with
    | file m d => exact absurd hl (h m d)
    | dir m kids => exact ⟨_, rfl⟩


/-! ## The walk -/

theorem rewEntry_isSome (old new : Bytes) (q : Path) (e : Option Entry) :
    (rewEntry old new q e).isSome = e.isSome := by
  unfold rewEntry
  split
  · split <;> rfl
  · rfl

theorem rewEntry_none (old new : Bytes) (q : Path) : rewEntry old new q none = none := rfl

theorem rewEntry_dir (old new : Bytes) (q : Path) (m : Nat) (ns : List Bytes) :
    rewEntry old new q (some (.dir m ns)) = some (.dir m ns) := rfl

theorem Part.isSome_eq {old new : Bytes} {S : Path → Prop} {fs fs1 : Node}
    (h : Part old new S fs fs1) (q : Path) :
    (entryAt fs1 q).isSome = (entryAt fs q).isSome := by
  rcases h q with h | ⟨_, h⟩
  · rw [h]
  · rw [h, rewEntry_isSome]

theorem Part.refl (old new : Bytes) (S : Path → Prop) (fs : Node) : Part old new S fs fs :=
  fun _ => Or.inl rfl

theorem Part.mono {old new : Bytes} {S S1 : Path → Prop} {fs fs1 : Node}
    (h : Part old new S fs fs1) (hs : ∀ q, S q → S1 q) : Part old new S1 fs fs1 := by
  intro q
  rcases h q with h | ⟨hq, h⟩
  · exact Or.inl h
  · exact Or.inr ⟨hs q hq, h⟩

theorem Lstat_of_lookup (fs : Node) (p : Path) (n : Node) (h : lookup fs p = some n) :
    Lstat fs p = .ok (infoOf p n) := by
  simp [Lstat, h]

theorem Lstat_of_none (fs : Node) (p : Path) (h : lookup fs p = none) :
    Lstat fs p = .error .notExist := by
  simp [Lstat, h]

theorem prefix_snoc_unique (p q : Path) (a b : Bytes) (ha : p ++ [a] <+: q)
    (hb : p ++ [b] <+: q) : a = b := by
  obtain ⟨r1, h1⟩ := ha
  obtain ⟨r2, h2⟩ := hb
  rw [← h2] at h1
  simp only [List.append_assoc, List.singleton_append] at h1
  have := List.append_cancel_left h1
  simp only [List.cons.injEq] at this
  exact this.1

/-- One call of the walk function on an existing object: it rewrites the entry at that
path at most, and on success has rewritten it. -/
theorem replaceImportsFn_visit (old new : Bytes) (fs : Node) (p : Path) (n : Node)
    (h : lookup fs p = some n) :
    Part old new (fun q => q = p) fs (replaceImportsFn old new p (some (infoOf p n)) none fs).2 ∧
    ((replaceImportsFn old new p (some (infoOf p n)) none fs).1 = none →
      entryAt (replaceImportsFn old new p (some (infoOf p n)) none fs).2 p =
        rewEntry old new p (entryAt fs p)) ∧
    (replaceImportsFn old new p (some (infoOf p n)) none fs).1 ≠ some .depth := by
  cases n with
  | dir m kids =>
    have e : replaceImportsFn old new p (some (infoOf p (.dir m kids))) none fs = (none, fs) := by
      simp [replaceImportsFn, infoOf]
    rw [e]
    refine ⟨Part.refl _ _ _ _, fun _ => ?_, by simp⟩
    simp [entryAt, h, Node.entry, rewEntry]
  | file m d =>
    by_cases hs : sourceName (baseName p) = true
    · have e : replaceImportsFn old new p (some (infoOf p (.file m d))) none fs =
          replaceInFile fs p old new := by
        simp [replaceImportsFn, infoOf, hs]
      rw [e, replaceInFile_of_file fs p m d old new h]
      by_cases hr : ownerRead m = true
      · by_cases hw : ownerWrite m = true
        · simp only [hr, hw, if_true]
          refine ⟨?_, fun _ => ?_, by simp⟩
          · intro q
            rw [entryAt_setData fs p m d _ h q]
            by_cases eq : q = p
            · right
              subst eq
              simp [entryAt, h, Node.entry, rewEntry, hs]
            · left
              simp [eq]
          · rw [entryAt_setData fs p m d _ h p]
            simp [entryAt, h, Node.entry, rewEntry, hs]
        · simp only [hr, hw, if_true]
          exact ⟨Part.refl _ _ _ _, fun hh => by simp at hh, by simp⟩
      · simp only [hr]
        exact ⟨Part.refl _ _ _ _, fun hh => by simp at hh, by simp⟩
    · have e : replaceImportsFn old new p (some (infoOf p (.file m d))) none fs = (none, fs) := by
        simp [replaceImportsFn, infoOf, hs]
      rw [e]
      refine ⟨Part.refl _ _ _ _, fun _ => ?_, by simp⟩
      simp [entryAt, h, Node.entry, rewEntry, hs]

theorem walkNames_ok (old new : Bytes) (fuel : Nat) (p : Path)
    (ih : ∀ (name : Bytes) (fs n : Node), lookup fs (p ++ [name]) = some n →
      (∀ q, (entryAt fs q).isSome = true → q.length < fuel + (p.length + 1)) →
      WalkOk old new (p ++ [name]) fs
        (walk (replaceImportsFn old new) fuel (p ++ [name]) (infoOf (p ++ [name]) n) fs)) :
    ∀ (ns : List Bytes) (fs : Node), ns.Nodup →
      (∀ q, (entryAt fs q).isSome = true → q.length < fuel + (p.length + 1)) →
      NamesOk old new p ns fs
        (walkNames (walk (replaceImportsFn old new) fuel) (replaceImportsFn old new) p ns fs) := by
  intro ns
  induction ns with
  | nil =>
    intro fs _ _
    exact ⟨Part.refl _ _ _ _, fun _ name hn => by simp at hn, by simp [walkNames]⟩
  | cons name rest ihn =>
    intro fs hnd hb
    have hnot : name ∉ rest := (List.nodup_cons.mp hnd).1
    have hrest : rest.Nodup := (List.nodup_cons.mp hnd).2
    cases hl : lookup fs (p ++ [name]) with
    | none =>
      have e : walkNames (walk (replaceImportsFn old new) fuel) (replaceImportsFn old new) p
          (name :: rest) fs = (some .notExist, fs) := by
        simp [walkNames, Lstat_of_none fs _ hl, replaceImportsFn]
      rw [e]
      exact ⟨Part.refl _ _ _ _, fun hh => by simp at hh, by simp⟩
    | some n =>
      have hw := ih name fs n hl hb
      generalize hr1 : walk (replaceImportsFn old new) fuel (p ++ [name])
        (infoOf (p ++ [name]) n) fs = r1 at hw
      obtain ⟨e1, fs1⟩ := r1
      obtain ⟨hp1, hs1, hd1⟩ := hw
      simp only at hp1 hs1 hd1
      cases e1 with
      | some err =>
        have e : walkNames (walk (replaceImportsFn old new) fuel) (replaceImportsFn old new) p
            (name :: rest) fs = (some err, fs1) := by
          simp [walkNames, Lstat_of_lookup fs _ n hl, hr1]
        rw [e]
        refine ⟨hp1.mono ?_, fun hh => by simp at hh, hd1⟩
        intro q hq
        exact ⟨name, by simp, hq⟩
      | none =>
        have e : walkNames (walk (replaceImportsFn old new) fuel) (replaceImportsFn old new) p
            (name :: rest) fs =
            walkNames (walk (replaceImportsFn old new) fuel) (replaceImportsFn old new) p
              rest fs1 := by
          simp [walkNames, Lstat_of_lookup fs _ n hl, hr1]
        rw [e]
        have hb1 : ∀ q, (entryAt fs1 q).isSome = true → q.length < fuel + (p.length + 1) := by
          intro q hq
          rw [hp1.isSome_eq q] at hq
          exact hb q hq
        obtain ⟨hp2, hs2, hd2⟩ := ihn fs1 hrest hb1
        refine ⟨?_, ?_, hd2⟩
        · intro q
          rcases hp2 q with h2 | ⟨⟨n2, hn2, hu2⟩, h2⟩
          · rcases hp1 q with h1 | ⟨hu1, h1⟩
            · left; rw [h2, h1]
            · right
              exact ⟨⟨name, by simp, hu1⟩, by rw [h2, h1]⟩
          · rcases hp1 q with h1 | ⟨hu1, _⟩
            · right
              exact ⟨⟨n2, by simp [hn2], hu2⟩, by rw [h2, h1]⟩
            · have := prefix_snoc_unique p q name n2 hu1 hu2
              subst this
              exact absurd hn2 hnot
        · intro hnone nm hnm q hq
          rcases List.mem_cons.mp hnm with rfl | hin
          · rcases hp2 q with h2 | ⟨⟨n2, hn2, hu2⟩, _⟩
            · rw [h2]
              exact hs1 rfl q hq
            · have := prefix_snoc_unique p q nm n2 hq hu2
              subst this
              exact absurd hn2 hnot
          · rw [hs2 hnone nm hin q hq]
            rcases hp1 q with h1 | ⟨hu1, _⟩
            · rw [h1]
            · have := prefix_snoc_unique p q name nm hu1 hq
              subst this
              exact absurd hin hnot


theorem readDirNames_of_dir (fs : Node) (p : Path) (m : Nat) (kids : List (Bytes × Node))
    (h : lookup fs p = some (.dir m kids)) :
    readDirNames fs p =
      if ownerRead m = true then
        .ok (((kids.map Prod.fst).dedup).insertionSort (fun a b => bytesLe a b = true))
      else .error .permission := by
  simp [readDirNames, h]

theorem sortedNames_nodup (names : List Bytes) :
    ((names.dedup).insertionSort (fun a b => bytesLe a b = true)).Nodup :=
  (List.perm_insertionSort _ _).nodup_iff.mpr (List.nodup_dedup _)

theorem mem_sortedNames (names : List Bytes) (a : Bytes) :
    a ∈ (names.dedup).insertionSort (fun a b => bytesLe a b = true) ↔ a ∈ names := by
  rw [(List.perm_insertionSort _ _).mem_iff, List.mem_dedup]

theorem walk_ok (old new : Bytes) :
    ∀ (fuel : Nat) (p : Path) (fs n : Node), lookup fs p = some n →
      (∀ q, (entryAt fs q).isSome = true → q.length < fuel + p.length) →
      WalkOk old new p fs (walk (replaceImportsFn old new) fuel p (infoOf p n) fs) := by
  intro fuel
  induction fuel with
  | zero =>
    intro p fs n h hb
    have := hb p (by simp [entryAt, h])
    omega
  | succ fuel ih =>
    intro p fs n h hb
    cases n with
    | file m d =>
      have e : walk (replaceImportsFn old new) (fuel + 1) p (infoOf p (.file m d)) fs =
          replaceImportsFn old new p (some (infoOf p (.file m d))) none fs := by
        simp [walk, infoOf]
      rw [e]
      obtain ⟨hp, hs, hd⟩ := replaceImportsFn_visit old new fs p _ h
      refine ⟨hp.mono (fun q hq => by rw [hq]), ?_, hd⟩
      intro hnone q hq
      by_cases eq : q = p
      · subst eq
        exact hs hnone
      · obtain ⟨r, rfl⟩ := hq
        have hr : r ≠ [] := by
          intro hr
          subst hr
          exact eq (by simp)
        have h0 : entryAt fs (p ++ r) = none := by
          simp [entryAt, lookup_append, h, lookup_file_below m d r hr]
        rcases hp (p ++ r) with h1 | ⟨h1, _⟩
        · rw [h1, h0]; rfl
        · exact absurd h1 eq
    | dir m kids =>
      by_cases hr : ownerRead m = true
      · have e : walk (replaceImportsFn old new) (fuel + 1) p (infoOf p (.dir m kids)) fs =
            walkNames (walk (replaceImportsFn old new) fuel) (replaceImportsFn old new) p
              (((kids.map Prod.fst).dedup).insertionSort (fun a b => bytesLe a b = true)) fs := by
          simp [walk, infoOf, readDirNames_of_dir fs p m kids h, hr, replaceImportsFn]
        rw [e]
        have hb1 : ∀ q, (entryAt fs q).isSome = true → q.length < fuel + (p.length + 1) := by
          intro q hq
          have := hb q hq
          omega
        obtain ⟨hp, hs, hd⟩ := walkNames_ok old new fuel p
          (fun name fs1 n1 hl hb2 => ih (p ++ [name]) fs1 n1 hl (by simpa using hb2))
          _ fs (sortedNames_nodup _) hb1
        refine ⟨hp.mono ?_, ?_, hd⟩
        · rintro q ⟨name, _, hq⟩
          exact (List.prefix_append p [name]).trans hq
        · intro hnone q hq
          obtain ⟨r, rfl⟩ := hq
          cases r with
          | nil =>
            rcases hp (p ++ []) with h1 | ⟨⟨name, _, hu⟩, _⟩
            · rw [h1]
              simp [entryAt, h, Node.entry, rewEntry]
            · have := hu.length_le
              simp at this
          | cons name r1 =>
            by_cases hin : name ∈ kids.map Prod.fst
            · refine hs hnone name ((mem_sortedNames _ _).mpr hin) _ ?_
              exact ⟨r1, by simp⟩
            · have hk : getKid name kids = none := by
                cases hk : getKid name kids with
                | none => rfl
                | some k => exact absurd (getKid_mem_map name kids k hk) hin
              have h0 : entryAt fs (p ++ name :: r1) = none := by
                simp [entryAt, lookup_append, h, lookup, hk]
              rcases hp (p ++ name :: r1) with h1 | ⟨_, h1⟩
              · rw [h1, h0]; rfl
              · exact h1
      · have e : walk (replaceImportsFn old new) (fuel + 1) p (infoOf p (.dir m kids)) fs =
            (some .permission, fs) := by
          simp [walk, infoOf, readDirNames_of_dir fs p m kids h, hr, replaceImportsFn]
        rw [e]
        exact ⟨Part.refl _ _ _ _, fun hh => by simp at hh, by simp⟩

/-- What `replaceImportsInDir` does to the tree, whatever it returns: entries under the
resolved root may have been rewritten, all of them are when it succeeds, and the
depth bound of the model is never what stops it. -/
theorem replaceImportsInDir_ok (cwd : Path) (dir old new : Bytes) (fs : Node) :
    (replaceImportsInDir cwd dir old new fs).1 ≠ some .depth ∧
    (∀ q, entryAt (replaceImportsInDir cwd dir old new fs).2 q = entryAt fs q ∨
      ∃ root, resolve cwd dir = some root ∧ root <+: q ∧
        entryAt (replaceImportsInDir cwd dir old new fs).2 q =
          rewEntry old new q (entryAt fs q)) ∧
    ((replaceImportsInDir cwd dir old new fs).1 = none →
      ∃ root, resolve cwd dir = some root ∧ (entryAt fs root).isSome = true ∧
        ∀ q, root <+: q →
          entryAt (replaceImportsInDir cwd dir old new fs).2 q =
            rewEntry old new q (entryAt fs q)) := by
  unfold replaceImportsInDir Walk
  cases hres : resolve cwd dir with
  | none =>
    simp [replaceImportsFn]
  | some root =>
    simp only
    cases hl : lookup fs root with
    | none =>
      rw [Lstat_of_none fs root hl]
      simp [replaceImportsFn]
    | some n =>
      rw [Lstat_of_lookup fs root n hl]
      simp only
      have hb : ∀ q, (entryAt fs q).isSome = true → q.length < fs.height + 1 + root.length := by
        intro q hq
        cases hq1 : lookup fs q with
        | none => simp [entryAt, hq1] at hq
        | some k =>
          have := lookup_height q fs k hq1
          omega
      obtain ⟨hp, hs, hd⟩ := walk_ok old new (fs.height + 1) root fs n hl hb
      refine ⟨hd, ?_, ?_⟩
      · intro q
        rcases hp q with h1 | ⟨hu, h1⟩
        · exact Or.inl h1
        · exact Or.inr ⟨root, rfl, hu, h1⟩
      · intro hnone
        exact ⟨root, rfl, by simp [entryAt, hl], hs hnone⟩


/-! ## Path strings -/

theorem splitSlash_ne_nil (s : Bytes) : splitSlash s ≠ [] := by
  cases s with
  | nil => simp [splitSlash]
  | cons c cs =>
    unfold splitSlash
    by_cases h : c = 47
    · simp [h]
    · simp only [h, if_false]
      split <;> simp

theorem splitSlash_cons_ne (c : Nat) (cs : Bytes) (h : c ≠ 47) :
    splitSlash (c :: cs) = ((c :: (splitSlash cs).headD []) :: (splitSlash cs).tail) := by
  have := splitSlash_ne_nil cs
  rw [splitSlash]
  simp only [h, if_false]
  cases hs : splitSlash cs with
  | nil => exact absurd hs this
  | cons seg segs => rfl

theorem splitSlash_append_slash (a b : Bytes) :
    splitSlash (a ++ 47 :: b) = splitSlash a ++ splitSlash b := by
  induction a with
  | nil => simp [splitSlash]
  | cons c cs ih =>
    by_cases h : c = 47
    · simp [splitSlash, h, ih]
    · rw [List.cons_append, splitSlash_cons_ne c _ h, splitSlash_cons_ne c cs h, ih]
      cases hs : splitSlash cs with
      | nil => exact absurd hs (splitSlash_ne_nil cs)
      | cons seg segs => simp

theorem resolve_dotGit (cwd : Path) (dir : Bytes) (target : Path)
    (h : resolve cwd dir = some target) :
    resolve cwd (dir ++ ascii "/.git") = some (target ++ [ascii ".git"]) := by
  unfold resolve at h ⊢
  by_cases hd : dir = []
  · simp [hd] at h
  · have hne : dir ++ ascii "/.git" ≠ [] := by simp [hd]
    have hh : (dir ++ ascii "/.git").head? = dir.head? := by
      cases dir with
      | nil => exact absurd rfl hd
      | cons c cs => rfl
    simp only [hd, if_false, Option.some.injEq] at h
    simp only [hne, if_false, hh, Option.some.injEq]
    have e1 : ascii "/.git" = 47 :: ascii ".git" := by decide
    have e2 : splitSlash (ascii ".git") = [ascii ".git"] := by decide
    rw [e1, splitSlash_append_slash, e2, List.foldl_append, h]
    have e3 : ∀ acc : Path, stepPath acc (ascii ".git") = acc ++ [ascii ".git"] := by
      intro acc
      have n1 : ascii ".git" ≠ [] := by decide
      have n2 : ascii ".git" ≠ ascii "." := by decide
      have n3 : ascii ".git" ≠ ascii ".." := by decide
      simp [stepPath, n1, n2, n3]
    simp [e3]

/-! ## Removal -/

theorem getKid_filter_ne (name a : Bytes) :
    ∀ kids : List (Bytes × Node),
      getKid a (kids.filter (fun kv => decide (kv.1 ≠ name))) =
        if a = name then none else getKid a kids := by
  intro kids
  induction kids with
  | nil => simp [getKid]
  | cons kv rest ih =>
    obtain ⟨key, v⟩ := kv
    by_cases hk : key = name <;> by_cases ha : a = key <;> by_cases han : a = name <;>
      simp_all [List.filter_cons, getKid]


theorem lookup_snoc_of_parent (fs : Node) (parent : Path) (name : Bytes) (n : Node)
    (h : lookup fs (parent ++ [name]) = some n) :
    ∃ m kids, lookup fs parent = some (.dir m kids) ∧ getKid name kids = some n := by
  rw [lookup_append] at h
  cases hp : lookup fs parent with
  | none => simp [hp] at h
  | some k =>
    rw [hp] at h
    simp only [Option.some_bind] at h
    cases k with
    | file m d => simp [lookup] at h
    | dir m kids =>
      refine ⟨m, kids, rfl, ?_⟩
      simp only [lookup] at h
      cases hk : getKid name kids with
      | none => rw [hk] at h; cases h
      | some k1 =>
        rw [hk] at h
        simp only [lookup_nil] at h
        exact h

/-- After a removal that succeeds, the path names nothing. -/
theorem RemoveAllAt_gone (fs : Node) (parent : Path) (name : Bytes)
    (h : (RemoveAllAt fs (parent ++ [name])).1 = none) :
    lookup (RemoveAllAt fs (parent ++ [name])).2 (parent ++ [name]) = none := by
  have hg : (parent ++ [name]).getLast? = some name := by simp
  unfold RemoveAllAt at h ⊢
  simp only [hg, List.dropLast_concat] at h ⊢
  cases hl : lookup fs (parent ++ [name]) with
  | none => simp [hl]
  | some n =>
    obtain ⟨m, kids, hp, hk⟩ := lookup_snoc_of_parent fs parent name n hl
    simp only [hl, hp] at h ⊢
    by_cases hc : (ownerWrite m && ownerExec m && n.removable) = true
    · simp only [hc, if_true]
      rw [lookup_modifyAt_on _ [name] parent fs _ hp]
      simp only [lookup]
      rw [getKid_filter_ne]
      simp
    · simp [hc] at h

/-- A removal leaves every file it does not remove as it was. -/
theorem RemoveAllAt_files (fs : Node) (p q : Path) (m : Nat) (d : Bytes)
    (h : entryAt (RemoveAllAt fs p).2 q = some (.file m d)) :
    entryAt fs q = some (.file m d) := by
  unfold RemoveAllAt at h
  cases hg : p.getLast? with
  | none => simpa [hg] using h
  | some name =>
    simp only [hg] at h
    cases hl : lookup fs p with
    | none => simpa [hl] using h
    | some n =>
      cases hp : lookup fs p.dropLast with
      | none => simpa [hl, hp] using h
      | some k =>
        cases k with
        | file m1 d1 => simpa [hl, hp] using h
        | dir m1 kids =>
          simp only [hl, hp] at h
          by_cases hc : (ownerWrite m1 && ownerExec m1 && n.removable) = true
          · simp only [hc, if_true] at h
            by_cases hpre : p.dropLast <+: q
            · obtain ⟨r, rfl⟩ := hpre
              unfold entryAt at h ⊢
              rw [lookup_modifyAt_on _ r p.dropLast fs _ hp] at h
              rw [lookup_append, hp]
              simp only [Option.some_bind]
              cases r with
              | nil => simp [lookup_nil, Node.entry] at h
              | cons a r1 =>
                simp only [lookup, getKid_filter_ne] at h ⊢
                by_cases ha : a = name
                · simp [ha] at h
                · simpa [ha] using h
            · rw [entryAt_modifyAt_off _ _ fs q hpre] at h
              exact h
          · simpa [hc] using h

/-! ## The steps of `run` -/

theorem pair_of_fst {α β : Type} (r : α × β) (a : α) (h : r.1 = a) : r = (a, r.2) := by
  cases r
  simp only at h
  rw [h]

theorem run_of_clone_error (T : Tools) (opts : Opts) (w : World) (e : Err)
    (h1 : (afterClone T opts w).1 = some e) :
    run T opts w = (some (.wrap "clone failed" e), (afterClone T opts w).2) := by
  have e1 := pair_of_fst _ _ h1
  unfold afterClone targetDir at e1
  unfold run
  simp only
  rw [e1]
  rfl

theorem run_of_clone_ok (T : Tools) (opts : Opts) (w : World)
    (h1 : (afterClone T opts w).1 = none) :
    run T opts w =
      match afterRewrite T opts w with
      | (some err, w2) => (some (.wrap "replace imports failed" err), w2)
      | (none, _) =>
        match afterRemove T opts w with
        | (some err, w3) => (some (.wrap "remove .git failed" err), w3)
        | (none, _) =>
          match afterInit T opts w with
          | (some err, w4) => (some (.wrap "git init failed" err), w4)
          | (none, _) =>
            match afterChdir T opts w with
            | (some err, w5) => (some (.wrap "chdir failed" err), w5)
            | (none, _) =>
              match afterTidy T opts w with
              | (some err, w6) => (some (.wrap "go mod tidy failed" err), w6)
              | (none, w6) => (none, w6) := by
  have e1 := pair_of_fst _ _ h1
  unfold afterClone targetDir at e1
  unfold run
  simp only
  rw [e1]
  simp only
  generalize h2 : afterRewrite T opts w = r2
  have h2' := h2
  unfold afterRewrite afterClone targetDir at h2'
  rw [e1] at h2'
  simp only at h2'
  rw [h2']
  obtain ⟨x2, w2⟩ := r2
  cases x2 with
  | some err => rfl
  | none =>
    simp only
    generalize h3 : afterRemove T opts w = r3
    have h3' := h3
    unfold afterRemove targetDir at h3'
    rw [h2] at h3'
    simp only at h3'
    rw [h3']
    obtain ⟨x3, w3⟩ := r3
    cases x3 with
    | some err => rfl
    | none =>
      simp only
      generalize h4 : afterInit T opts w = r4
      have h4' := h4
      unfold afterInit at h4'
      rw [h3] at h4'
      simp only at h4'
      rw [h4']
      obtain ⟨x4, w4⟩ := r4
      cases x4 with
      | some err => rfl
      | none =>
        simp only
        generalize h5 : afterChdir T opts w = r5
        have h5' := h5
        unfold afterChdir targetDir at h5'
        rw [h4] at h5'
        simp only at h5'
        rw [h5']
        obtain ⟨x5, w5⟩ := r5
        cases x5 with
        | some err => rfl
        | none =>
          simp only
          generalize h6 : afterTidy T opts w = r6
          have h6' := h6
          unfold afterTidy at h6'
          rw [h5] at h6'
          simp only at h6'
          rw [h6']


theorem Chdir_fs (dir : Bytes) (w : World) : (Chdir dir w).2.fs = w.fs := by
  unfold Chdir
  simp only
  split
  · rfl
  · split
    · split <;> rfl
    · rfl

theorem Chdir_trace (dir : Bytes) (w : World) :
    (Chdir dir w).2.trace = w.trace ++ [.chdir dir w.cwd] := by
  unfold Chdir
  simp only
  split
  · rfl
  · split
    · split <;> rfl
    · rfl

theorem Chdir_ok (dir : Bytes) (w : World) (h : (Chdir dir w).1 = none) :
    resolve w.cwd dir = some (Chdir dir w).2.cwd := by
  unfold Chdir at h ⊢
  simp only at h ⊢
  cases hr : resolve w.cwd dir with
  | none => simp [hr] at h
  | some p =>
    simp only [hr] at h ⊢
    cases hl : lookup w.fs p with
    | none => simp [hl] at h
    | some n =>
      cases n with
      | file m d => simp [hl] at h
      | dir m kids =>
        simp only [hl] at h ⊢
        by_cases hx : ownerExec m = true
        · simp [hx]
        · simp [hx] at h

/-- A run that succeeds has had every step succeed, and ends in the state the last
step left. -/
theorem run_success (T : Tools) (opts : Opts) (w : World) (h : (run T opts w).1 = none) :
    (afterClone T opts w).1 = none ∧ (afterRewrite T opts w).1 = none ∧
    (afterRemove T opts w).1 = none ∧ (afterInit T opts w).1 = none ∧
    (afterChdir T opts w).1 = none ∧ (afterTidy T opts w).1 = none ∧
    run T opts w = (none, (afterTidy T opts w).2) := by
  cases h1 : (afterClone T opts w).1 with
  | some e =>
    rw [run_of_clone_error T opts w e h1] at h
    simp at h
  | none =>
    have hrun := run_of_clone_ok T opts w h1
    rw [hrun] at h ⊢
    rcases h2 : afterRewrite T opts w with ⟨x2, w2⟩
    rw [h2] at h
    cases x2 with
    | some e => simp at h
    | none =>
      simp only at h ⊢
      rcases h3 : afterRemove T opts w with ⟨x3, w3⟩
      rw [h3] at h
      cases x3 with
      | some e => simp at h
      | none =>
        simp only at h ⊢
        rcases h4 : afterInit T opts w with ⟨x4, w4⟩
        rw [h4] at h
        cases x4 with
        | some e => simp at h
        | none =>
          simp only at h ⊢
          rcases h5 : afterChdir T opts w with ⟨x5, w5⟩
          rw [h5] at h
          cases x5 with
          | some e => simp at h
          | none =>
            simp only at h ⊢
            rcases h6 : afterTidy T opts w with ⟨x6, w6⟩
            rw [h6] at h
            cases x6 with
            | some e => simp at h
            | none => simp

theorem afterRewrite_ok (T : Tools) (opts : Opts) (w : World)
    (h : (afterRewrite T opts w).1 = none) :
    ∃ target, resolve w.cwd (targetDir opts) = some target ∧
      ∀ q, target <+: q →
        entryAt (afterRewrite T opts w).2.fs q =
          rewEntry (oldImport opts) (newImport opts) q (entryAt (afterClone T opts w).2.fs q) := by
  obtain ⟨_, _, hs⟩ := replaceImportsInDir_ok w.cwd (targetDir opts) (oldImport opts)
    (newImport opts) (afterClone T opts w).2.fs
  obtain ⟨root, hr, _, hq⟩ := hs h
  exact ⟨root, hr, hq⟩

theorem afterRemove_gone (T : Tools) (opts : Opts) (w : World) (target : Path)
    (ht : resolve w.cwd (targetDir opts) = some target)
    (h : (afterRemove T opts w).1 = none) :
    entryAt (afterRemove T opts w).2.fs (target ++ [ascii ".git"]) = none := by
  have hr : resolve (afterRewrite T opts w).2.cwd (targetDir opts ++ ascii "/.git") =
      some (target ++ [ascii ".git"]) := resolve_dotGit w.cwd _ target ht
  unfold afterRemove RemoveAll at h ⊢
  simp only [hr] at h ⊢
  simp [entryAt, RemoveAllAt_gone _ target (ascii ".git") h]

theorem afterRemove_files (T : Tools) (opts : Opts) (w : World) (q : Path) (m : Nat)
    (d : Bytes) (h : entryAt (afterRemove T opts w).2.fs q = some (.file m d)) :
    entryAt (afterRewrite T opts w).2.fs q = some (.file m d) := by
  unfold afterRemove RemoveAll at h
  simp only at h
  cases hr : resolve (afterRewrite T opts w).2.cwd (targetDir opts ++ ascii "/.git") with
  | none => simpa [hr] using h
  | some p =>
    simp only [hr] at h
    exact RemoveAllAt_files _ p q m d h


/-! ## The sample tools -/

theorem getKid_append_one (a name : Bytes) (n : Node) :
    ∀ kids : List (Bytes × Node),
      getKid a (kids ++ [(name, n)]) =
        match getKid a kids with
        | some k => some k
        | none => if a = name then some n else none := by
  intro kids
  induction kids with
  | nil => simp [getKid]
  | cons kv rest ih =>
    obtain ⟨key, v⟩ := kv
    by_cases e : a = key
    · simp [getKid, e]
    · rw [List.cons_append]
      simp only [getKid, e, if_false]
      exact ih

theorem lookup_empty_dir_below (m : Nat) (r : Path) (hr : r ≠ []) :
    lookup (.dir m []) r = none := by
  cases r with
  | nil => exact absurd rfl hr
  | cons a as => rfl

/-- The sample `git init` changes what the working directory lists and creates an empty
`.git` in it, nothing else. -/
theorem sampleTools_git_init (cwd : Path) (fs : Node) (q : Path) :
    entryAt (sampleTools.exec "git" ["init"] cwd fs).2 q = entryAt fs q ∨
      ∃ m ns, entryAt (sampleTools.exec "git" ["init"] cwd fs).2 q = some (.dir m ns) ∧
        (q = cwd ∨ q = cwd ++ [ascii ".git"]) := by
  have e : sampleTools.exec "git" ["init"] cwd fs =
      match lookup fs cwd with
      | some (.dir m kids) =>
        if (getKid (ascii ".git") kids).isSome then (none, fs)
        else (none, modifyAt (fun _ => .dir m (kids ++ [(ascii ".git", .dir 0o755 [])])) fs cwd)
      | _ => (some .notExist, fs) := by
    simp [sampleTools]
  rw [e]
  cases hl : lookup fs cwd with
  | none => exact Or.inl rfl
  | some n =>
    cases n with
    | file m d => exact Or.inl rfl
    | dir m kids =>
      simp only
      by_cases hg : (getKid (ascii ".git") kids).isSome = true
      · simp only [hg, if_true]
        exact Or.inl trivial
      · simp only [hg]
        have hgn : getKid (ascii ".git") kids = none := by
          cases hk : getKid (ascii ".git") kids with
          | none => rfl
          | some k => simp [hk] at hg
        by_cases hpre : cwd <+: q
        · obtain ⟨r, rfl⟩ := hpre
          unfold entryAt
          simp only [Bool.false_eq_true, if_false]
          rw [lookup_modifyAt_on _ r cwd fs _ hl, lookup_append, hl]
          simp only [Option.some_bind]
          cases r with
          | nil =>
            right
            exact ⟨m, (kids ++ [(ascii ".git", Node.dir 0o755 [])]).map Prod.fst,
              by simp [lookup_nil, Node.entry], Or.inl (by simp)⟩
          | cons a r1 =>
            simp only [lookup]
            rw [getKid_append_one]
            cases hk : getKid a kids with
            | some k => exact Or.inl rfl
            | none =>
              simp only
              by_cases ha : a = ascii ".git"
              · subst ha
                simp only [if_true]
                cases r1 with
                | nil =>
                  right
                  exact ⟨0o755, [], by simp [lookup_nil, Node.entry], Or.inr rfl⟩
                | cons b r2 =>
                  left
                  simp [lookup, getKid]
              · simp only [ha, if_false]
                exact Or.inl trivial
        · left
          simp only [Bool.false_eq_true, if_false]
          exact entryAt_modifyAt_off _ cwd fs q hpre

theorem sampleTools_go_mod_tidy (cwd : Path) (fs : Node) :
    (sampleTools.exec "go" ["mod", "tidy"] cwd fs).2 = fs := by
  simp [sampleTools]

theorem sampleTools_git_init_NoOld (old : Bytes) (target cwd : Path) (fs : Node)
    (h : NoOld old target fs) : NoOld old target (sampleTools.exec "git" ["init"] cwd fs).2 := by
  intro q m d hq he hs
  rcases sampleTools_git_init cwd fs q with h1 | ⟨m1, ns, h1, _⟩
  · rw [h1] at he
    exact h q m d hq he hs
  · rw [h1] at he
    cases he

theorem sampleTools_git_init_dotGit (t cwd : Path) (fs : Node) (hne : t ≠ cwd)
    (h : entryAt fs (t ++ [ascii ".git"]) = none) :
    entryAt (sampleTools.exec "git" ["init"] cwd fs).2 (t ++ [ascii ".git"]) = none := by
  rcases sampleTools_git_init cwd fs (t ++ [ascii ".git"]) with h1 | ⟨m1, ns, h1, hq⟩
  · rw [h1]; exact h
  · rcases hq with hq | hq
    · exfalso
      have hl : lookup fs cwd ≠ none := by
        intro hl
        have : sampleTools.exec "git" ["init"] cwd fs = (some .notExist, fs) := by
          simp [sampleTools, hl]
        rw [this, h] at h1
        cases h1
      rw [← hq] at hl
      simp [entryAt] at h
      exact hl h
    · exact absurd (List.append_cancel_right hq) hne


/-! ## What each step leaves of the working directory and the trace -/

theorem afterInit_cwd (T : Tools) (opts : Opts) (w : World) :
    (afterInit T opts w).2.cwd = w.cwd := rfl

theorem afterClone_trace (T : Tools) (opts : Opts) (w : World) :
    (afterClone T opts w).2.trace = w.trace ++ [.clone (targetDir opts) opts.RepoURL w.cwd] :=
  rfl

theorem afterRewrite_trace (T : Tools) (opts : Opts) (w : World) :
    (afterRewrite T opts w).2.trace =
      w.trace ++ [.clone (targetDir opts) opts.RepoURL w.cwd, .walk (targetDir opts) w.cwd] := by
  show (w.trace ++ [_]) ++ [_] = _
  simp only [List.append_assoc, List.singleton_append]
  rfl

theorem afterRemove_trace (T : Tools) (opts : Opts) (w : World) :
    (afterRemove T opts w).2.trace =
      w.trace ++ [.clone (targetDir opts) opts.RepoURL w.cwd, .walk (targetDir opts) w.cwd,
        .removeAll (targetDir opts ++ ascii "/.git") w.cwd] := by
  show (afterRewrite T opts w).2.trace ++ [_] = _
  rw [afterRewrite_trace]
  simp
  rfl

theorem afterInit_trace (T : Tools) (opts : Opts) (w : World) :
    (afterInit T opts w).2.trace =
      w.trace ++ [.clone (targetDir opts) opts.RepoURL w.cwd, .walk (targetDir opts) w.cwd,
        .removeAll (targetDir opts ++ ascii "/.git") w.cwd, .exec "git" ["init"] w.cwd] := by
  show (afterRemove T opts w).2.trace ++ [_] = _
  rw [afterRemove_trace]
  simp
  rfl

theorem afterChdir_trace (T : Tools) (opts : Opts) (w : World) :
    (afterChdir T opts w).2.trace =
      w.trace ++ [.clone (targetDir opts) opts.RepoURL w.cwd, .walk (targetDir opts) w.cwd,
        .removeAll (targetDir opts ++ ascii "/.git") w.cwd, .exec "git" ["init"] w.cwd,
        .chdir (targetDir opts) w.cwd] := by
  unfold afterChdir
  rw [Chdir_trace, afterInit_trace, afterInit_cwd]
  simp

theorem afterTidy_trace (T : Tools) (opts : Opts) (w : World) :
    (afterTidy T opts w).2.trace =
      w.trace ++ [.clone (targetDir opts) opts.RepoURL w.cwd, .walk (targetDir opts) w.cwd,
        .removeAll (targetDir opts ++ ascii "/.git") w.cwd, .exec "git" ["init"] w.cwd,
        .chdir (targetDir opts) w.cwd,
        .exec "go" ["mod", "tidy"] (afterChdir T opts w).2.cwd] := by
  show (afterChdir T opts w).2.trace ++ [_] = _
  rw [afterChdir_trace]
  simp

theorem afterChdir_ok (T : Tools) (opts : Opts) (w : World)
    (h : (afterChdir T opts w).1 = none) :
    resolve w.cwd (targetDir opts) = some (afterChdir T opts w).2.cwd := by
  have := Chdir_ok (targetDir opts) (afterInit T opts w).2 h
  rw [afterInit_cwd] at this
  exact this

theorem afterTidy_cwd (T : Tools) (opts : Opts) (w : World) :
    (afterTidy T opts w).2.cwd = (afterChdir T opts w).2.cwd := rfl

theorem afterChdir_fs (T : Tools) (opts : Opts) (w : World) :
    (afterChdir T opts w).2.fs = (afterInit T opts w).2.fs :=
  Chdir_fs _ _

theorem afterInit_fs (T : Tools) (opts : Opts) (w : World) :
    (afterInit T opts w).2.fs = (T.exec "git" ["init"] w.cwd (afterRemove T opts w).2.fs).2 :=
  rfl

theorem afterTidy_fs (T : Tools) (opts : Opts) (w : World) :
    (afterTidy T opts w).2.fs =
      (T.exec "go" ["mod", "tidy"] (afterChdir T opts w).2.cwd (afterChdir T opts w).2.fs).2 :=
  rfl

theorem run_steps (T : Tools) (opts : Opts) (w : World)
    (h1 : (afterClone T opts w).1 = none) :
    (∀ e, (afterRewrite T opts w).1 = some e →
      run T opts w = (some (.wrap "replace imports failed" e), (afterRewrite T opts w).2)) ∧
    ((afterRewrite T opts w).1 = none →
      (∀ e, (afterRemove T opts w).1 = some e →
        run T opts w = (some (.wrap "remove .git failed" e), (afterRemove T opts w).2)) ∧
      ((afterRemove T opts w).1 = none →
        (∀ e, (afterInit T opts w).1 = some e →
          run T opts w = (some (.wrap "git init failed" e), (afterInit T opts w).2)) ∧
        ((afterInit T opts w).1 = none →
          (∀ e, (afterChdir T opts w).1 = some e →
            run T opts w = (some (.wrap "chdir failed" e), (afterChdir T opts w).2)) ∧
          ((afterChdir T opts w).1 = none →
            (∀ e, (afterTidy T opts w).1 = some e →
              run T opts w = (some (.wrap "go mod tidy failed" e), (afterTidy T opts w).2)) ∧
            ((afterTidy T opts w).1 = none →
              run T opts w = (none, (afterTidy T opts w).2)))))) := by
  rw [run_of_clone_ok T opts w h1]
  rcases afterRewrite T opts w with ⟨x2, w2⟩
  rcases afterRemove T opts w with ⟨x3, w3⟩
  rcases afterInit T opts w with ⟨x4, w4⟩
  rcases afterChdir T opts w with ⟨x5, w5⟩
  rcases afterTidy T opts w with ⟨x6, w6⟩
  refine ⟨?_, ?_⟩
  · rintro e ⟨⟩; rfl
  · rintro ⟨⟩
    refine ⟨?_, ?_⟩
    · rintro e ⟨⟩; rfl
    · rintro ⟨⟩
      refine ⟨?_, ?_⟩
      · rintro e ⟨⟩; rfl
      · rintro ⟨⟩
        refine ⟨?_, ?_⟩
        · rintro e ⟨⟩; rfl
        · rintro ⟨⟩
          refine ⟨?_, ?_⟩
          · rintro e ⟨⟩; rfl
          · rintro ⟨⟩; rfl

theorem Index_of_first (old suf : Bytes) :
    ∀ pre : Bytes, ¬ Occurs old (pre ++ old.dropLast) →
      Index (pre ++ old ++ suf) old = some pre.length := by
  intro pre
  induction pre with
  | nil =>
    intro _
    have hp : HasPrefix (old ++ suf) old = true :=
      (HasPrefix_iff _ _).mpr (List.prefix_append _ _)
    unfold Index
    simp [hp]
  | cons c cs ih =>
    intro h
    have hne : old ≠ [] := by
      intro e
      subst e
      exact h List.nil_infix
    have hnp : ¬ old <+: c :: (cs ++ old ++ suf) := by
      intro hp
      apply h
      have h2 : (c :: cs) ++ old.dropLast <+: c :: (cs ++ old ++ suf) := by
        have : c :: (cs ++ old ++ suf) = ((c :: cs) ++ old.dropLast) ++
            (old.drop (old.length - 1) ++ suf) := by
          have e := List.take_append_drop (old.length - 1) old
          rw [← List.dropLast_eq_take] at e
          conv_lhs => rw [← e]
          simp
        rw [this]
        exact List.prefix_append _ _
      have hlen : old.length ≤ ((c :: cs) ++ old.dropLast).length := by
        simp only [List.length_append, List.length_cons, List.length_dropLast]
        omega
      exact (List.prefix_of_prefix_length_le hp h2 hlen).isInfix
    have ht : ¬ Occurs old (cs ++ old.dropLast) := by
      intro ho
      apply h
      unfold Occurs at ho ⊢
      rw [List.cons_append, List.infix_cons_iff]
      exact Or.inr ho
    show Index (c :: (cs ++ old ++ suf)) old = _
    rw [Index_cons, if_neg hnp, ih ht]
    rfl


/-! ## The properties of the specification -/

/-- C1: on an existing file that the process may read and write, `replaceInFile`
succeeds and writes back the file's content with every occurrence of `old` replaced
by `new` (left to right, without overlap, also where `old` is part of a longer path),
as `replaceAllSpec` words it; nothing else in the content changes, and every other
entry of the tree stays as it was. -/
theorem replaceInFile_writes_replacement (fs : Node) (p : Path) (mode : Nat)
    (c old new : Bytes) (hfile : lookup fs p = some (.file mode c))
    (hr : ownerRead mode = true) (hw : ownerWrite mode = true) :
    (replaceInFile fs p old new).1 = none ∧
    ReadFile (replaceInFile fs p old new).2 p = .ok (replaceAllSpec c old new) ∧
    ∀ q, q ≠ p → entryAt (replaceInFile fs p old new).2 q = entryAt fs q := by
  rw [replaceInFile_of_file fs p mode c old new hfile]
  simp only [hr, hw, if_true]
  have hl := lookup_modifyAt_on (fun _ => Node.file mode (Replace c old new (-1))) [] p fs _ hfile
  simp only [List.append_nil, lookup_nil] at hl
  refine ⟨trivial, ?_, ?_⟩
  · unfold ReadFile
    rw [hl]
    simp [hr, Replace_all_eq_spec]
  · intro q hq
    rw [entryAt_setData fs p mode c _ hfile q]
    simp [hq]

/-- C1, on a concrete file: both occurrences of `x/tmpl` in `x/tmpl-kit x/tmpl` are
replaced, the one inside the longer path too. -/
theorem replaceInFile_writes_replacement_witness :
    ((replaceInFile pairFs [ascii "a.go"] (ascii "x/tmpl") (ascii "y/app")).1 = none ∧
      ReadFile (replaceInFile pairFs [ascii "a.go"] (ascii "x/tmpl") (ascii "y/app")).2
          [ascii "a.go"] =
        .ok (replaceAllSpec (ascii "x/tmpl-kit x/tmpl") (ascii "x/tmpl") (ascii "y/app")) ∧
      ∀ q, q ≠ [ascii "a.go"] →
        entryAt (replaceInFile pairFs [ascii "a.go"] (ascii "x/tmpl") (ascii "y/app")).2 q =
          entryAt pairFs q) ∧
    replaceAllSpec (ascii "x/tmpl-kit x/tmpl") (ascii "x/tmpl") (ascii "y/app") =
      ascii "y/app-kit y/app" :=
  ⟨replaceInFile_writes_replacement pairFs [ascii "a.go"] 0o640 (ascii "x/tmpl-kit x/tmpl")
      (ascii "x/tmpl") (ascii "y/app") (by rfl) (by decide) (by decide),
    by decide⟩

/-- C6: when `replaceInFile` succeeds, the path named an existing file and the file's
permission bits after the rewrite are its permission bits before it (`os.WriteFile`
applies its `perm` argument only to a file it creates). -/
theorem replaceInFile_preserves_mode (fs : Node) (p : Path) (old new : Bytes)
    (hok : (replaceInFile fs p old new).1 = none) :
    (∃ mode c, lookup fs p = some (.file mode c)) ∧
    modeAt (replaceInFile fs p old new).2 p = modeAt fs p := by
  cases hl : lookup fs p with
  | none =>
    obtain ⟨e, he⟩ := replaceInFile_of_not_file fs p old new (by simp [hl])
    rw [he] at hok
    cases hok
  | some n =>
    cases n with
    | dir m kids =>
      obtain ⟨e, he⟩ := replaceInFile_of_not_file fs p old new (by simp [hl])
      rw [he] at hok
      cases hok
    | file m c =>
      refine ⟨⟨m, c, rfl⟩, ?_⟩
      rw [replaceInFile_of_file fs p m c old new hl] at hok ⊢
      by_cases hr : ownerRead m = true
      · by_cases hw : ownerWrite m = true
        · simp only [hr, hw, if_true]
          have h2 := lookup_modifyAt_on (fun _ => Node.file m (Replace c old new (-1))) [] p fs _ hl
          simp only [List.append_nil, lookup_nil] at h2
          simp [modeAt, h2, hl]
        · simp [hr, hw] at hok
      · simp [hr] at hok

/-- C6, on a concrete file of mode 0640. -/
theorem replaceInFile_preserves_mode_witness :
    (∃ mode c, lookup pairFs [ascii "a.go"] = some (.file mode c)) ∧
    modeAt (replaceInFile pairFs [ascii "a.go"] (ascii "x/tmpl") (ascii "y/app")).2
        [ascii "a.go"] = modeAt pairFs [ascii "a.go"] :=
  replaceInFile_preserves_mode pairFs [ascii "a.go"] (ascii "x/tmpl") (ascii "y/app")
    (by decide)

/-- C9: when `old` does not occur in the content `c` of a file, the replacement
`replaceInFile` performs returns `c` unchanged, and `replaceInFile` leaves the whole
tree as it was: a second run of the rewrite is a no-op. -/
theorem replaceInFile_noop_when_absent (fs : Node) (p : Path) (c old new : Bytes)
    (hread : ReadFile fs p = .ok c) (hno : ¬ Occurs old c) :
    Replace c old new (-1) = c ∧ (replaceInFile fs p old new).2 = fs := by
  have hrep := Replace_of_not_occurs c old new hno
  refine ⟨hrep, ?_⟩
  unfold ReadFile at hread
  cases hl : lookup fs p with
  | none => simp [hl] at hread
  | some n =>
    cases n with
    | dir m kids => simp [hl] at hread
    | file m d =>
      simp only [hl] at hread
      by_cases hr : ownerRead m = true
      · simp only [hr, if_true, Except.ok.injEq] at hread
        subst hread
        rw [replaceInFile_of_file fs p m d old new hl]
        by_cases hw : ownerWrite m = true
        · simp only [hr, hw, if_true, hrep]
          exact modifyAt_const_self p fs _ hl
        · simp [hr, hw]
      · simp [hr] at hread

/-- C9, on a concrete file in which `z/none` does not occur. -/
theorem replaceInFile_noop_when_absent_witness :
    Replace (ascii "x/tmpl-kit x/tmpl") (ascii "z/none") (ascii "y/app") (-1) =
      ascii "x/tmpl-kit x/tmpl" ∧
    (replaceInFile pairFs [ascii "a.go"] (ascii "z/none") (ascii "y/app")).2 = pairFs :=
  replaceInFile_noop_when_absent pairFs [ascii "a.go"] (ascii "x/tmpl-kit x/tmpl")
    (ascii "z/none") (ascii "y/app") (by rfl) (by decide)


/-- C5, as the code has it: `run` removes the first `https://` from the repo URL and
nothing else. A URL that begins with `https://` loses exactly that prefix; a URL in
which `https://` does not occur (one with another scheme, say) is the old import path
unchanged. -/
theorem oldImport_strips_https (opts : Opts) :
    (∀ rest, opts.RepoURL = ascii "https://" ++ rest → oldImport opts = rest) ∧
    (¬ Occurs (ascii "https://") opts.RepoURL → oldImport opts = opts.RepoURL) := by
  constructor
  · intro rest h
    have hi : Index opts.RepoURL (ascii "https://") = some 0 := by
      rw [h]
      have := Index_of_first (ascii "https://") rest [] (by decide)
      simpa using this
    unfold oldImport
    rw [Replace_one_of_some _ _ _ 0 (by decide) hi, h]
    have : (ascii "https://").length = 8 := by decide
    simp [this]
  · intro h
    have hi : Index opts.RepoURL (ascii "https://") = none := by
      cases hx : Index opts.RepoURL (ascii "https://") with
      | none => rfl
      | some d => exact absurd ((Index_isSome_iff _ _).mp (by simp [hx])) h
    exact Replace_one_of_none _ _ _ hi

/-- C5 on the default repo URL, which begins with `https://`, and on one reached over
plain HTTP, in which `https://` does not occur. -/
theorem oldImport_strips_https_witness :
    oldImport defaultOpts = ascii "github.com/ravilushqa/boilerplate" ∧
    oldImport httpOpts = httpOpts.RepoURL :=
  ⟨(oldImport_strips_https defaultOpts).1 (ascii "github.com/ravilushqa/boilerplate")
      (by decide),
    (oldImport_strips_https httpOpts).2 (by decide)⟩

/-- C5 as stated fails: for the repo URL `http://example.com/org/boilerplate` the
old import path still begins with the scheme `http://`. -/
theorem oldImport_keeps_http_scheme :
    oldImport httpOpts = ascii "http://example.com/org/boilerplate" ∧
    HasPrefix (oldImport httpOpts) (ascii "http://") = true := by
  decide

/-- C4, as the code has it: the new import path is the old import path with its first
occurrence of the literal `boilerplate` replaced by the project name, and is the
old import path itself when `boilerplate` does not occur in it. The first occurrence
is the template's base name when the URL ends in it and it does not occur earlier. -/
theorem newImport_replaces_first_boilerplate (opts : Opts) :
    (∀ pre suf, oldImport opts = pre ++ ascii "boilerplate" ++ suf →
      ¬ Occurs (ascii "boilerplate") (pre ++ ascii "boilerplat") →
      newImport opts = pre ++ opts.Project ++ suf) ∧
    (¬ Occurs (ascii "boilerplate") (oldImport opts) → newImport opts = oldImport opts) := by
  constructor
  · intro pre suf h hfirst
    have hd : (ascii "boilerplate").dropLast = ascii "boilerplat" := by decide
    have hi : Index (oldImport opts) (ascii "boilerplate") = some pre.length := by
      rw [h]
      exact Index_of_first (ascii "boilerplate") suf pre (by rw [hd]; exact hfirst)
    unfold newImport
    rw [Replace_one_of_some _ _ _ pre.length (by decide) hi, h]
    simp
  · intro h
    have hi : Index (oldImport opts) (ascii "boilerplate") = none := by
      cases hx : Index (oldImport opts) (ascii "boilerplate") with
      | none => rfl
      | some d => exact absurd ((Index_isSome_iff _ _).mp (by simp [hx])) h
    exact Replace_one_of_none _ _ _ hi

/-- C4 on the end-to-end scenario of the specification:
`https://example.com/org/boilerplate` and `acme-service` give
`example.com/org/acme-service`. -/
theorem newImport_replaces_first_boilerplate_witness :
    newImport scenarioOpts = ascii "example.com/org/" ++ ascii "acme-service" ++ [] ∧
    ascii "example.com/org/" ++ ascii "acme-service" ++ [] =
      ascii "example.com/org/acme-service" :=
  ⟨(newImport_replaces_first_boilerplate scenarioOpts).1 (ascii "example.com/org/") []
      (by decide) (by decide),
    by decide⟩

/-- C4 as stated fails: for the repo URL `https://example.com/org/template`, whose base
name is `template`, the new import path is not `example.com/org/acme-service` but the
old import path itself. -/
theorem newImport_keeps_other_base_name :
    oldImport otherTemplateOpts = ascii "example.com/org/template" ∧
    newImport otherTemplateOpts = ascii "example.com/org/template" ∧
    newImport otherTemplateOpts ≠ ascii "example.com/org/acme-service" := by
  decide


/-! ## Symbolic links and the walk -/

theorem getLink_mem (p : Path) :
    ∀ (links : List (Path × Path)) (t : Path), getLink p links = some t → (p, t) ∈ links := by
  intro links
  induction links with
  | nil => intro t h; simp [getLink] at h
  | cons kv rest ih =>
    intro t h
    obtain ⟨k, v⟩ := kv
    by_cases e : p = k
    · simp only [getLink, e, if_true, Option.some.injEq] at h
      simp [e, h]
    · simp only [getLink, e, if_false] at h
      exact List.mem_cons_of_mem _ (ih t h)

theorem linkAt_of_no_link (tree : Node) (links : List (Path × Path)) (p : Path)
    (h : getLink p links = none) : linkAt ⟨tree, links⟩ p = none := by
  unfold linkAt
  cases lookup tree p with
  | none => rfl
  | some n => cases n <;> simp [h]

theorem linkAt_of_dir (tree : Node) (links : List (Path × Path)) (p : Path) (m : Nat)
    (kids : List (Bytes × Node)) (h : lookup tree p = some (.dir m kids)) :
    linkAt ⟨tree, links⟩ p = none := by
  simp [linkAt, h]

/-- On a path that names an object of the tree and is not itself a link, no link is
met: the components above the last are directories of the tree. -/
theorem firstLink_of_lookup (tree : Node) (links : List (Path × Path)) :
    ∀ (rest acc : Path) (n : Node), lookup tree (acc ++ rest) = some n →
      getLink (acc ++ rest) links = none → firstLink ⟨tree, links⟩ acc rest = none := by
  intro rest
  induction rest with
  | nil => intro acc n _ _; rfl
  | cons c rest1 ih =>
    intro acc n hl hg
    have e : acc ++ c :: rest1 = (acc ++ [c]) ++ rest1 := by simp
    have hnone : linkAt ⟨tree, links⟩ (acc ++ [c]) = none := by
      cases rest1 with
      | nil => exact linkAt_of_no_link tree links _ hg
      | cons d rest2 =>
        rw [e, lookup_append] at hl
        cases hk : lookup tree (acc ++ [c]) with
        | none => simp [hk] at hl
        | some k =>
          rw [hk] at hl
          simp only [Option.some_bind] at hl
          cases k with
          | file m dat => simp [lookup] at hl
          | dir m kids => exact linkAt_of_dir tree links _ m kids hk
    simp only [firstLink, hnone]
    rw [e] at hl hg
    exact ih (acc ++ [c]) n hl hg

theorem realpath_of_lookup (tree : Node) (links : List (Path × Path)) (hops : Nat)
    (p : Path) (n : Node) (hl : lookup tree p = some n) (hg : getLink p links = none) :
    realpath ⟨tree, links⟩ (hops + 1) p = some p := by
  have := firstLink_of_lookup tree links p [] n (by simpa using hl) (by simpa using hg)
  simp [realpath, this]

/-- Where no link is met, `replaceInFile` with links is `replaceInFile` on the tree. -/
theorem Links_replaceInFile_of_lookup (tree : Node) (links : List (Path × Path)) (p : Path)
    (n : Node) (old new : Bytes) (hl : lookup tree p = some n)
    (hg : getLink p links = none) :
    Links.replaceInFile ⟨tree, links⟩ p old new =
      ((replaceInFile tree p old new).1, ⟨(replaceInFile tree p old new).2, links⟩) := by
  have hr : realpath ⟨tree, links⟩ maxHops p = some p :=
    realpath_of_lookup tree links 40 p n hl hg
  unfold Links.replaceInFile Links.ReadFile Links.WriteFile replaceInFile
  simp only [hr]
  cases ReadFile tree p with
  | error e => rfl
  | ok c => rfl

theorem Links_replaceImportsFn_of_lookup (links : List (Path × Path)) (old new : Bytes)
    (tree : Node) (p : Path) (n : Node) (hl : lookup tree p = some n)
    (hg : sourceName (baseName p) = true → getLink p links = none) :
    Links.replaceImportsFn links old new p (some (infoOf p n)) none tree =
      replaceImportsFn old new p (some (infoOf p n)) none tree := by
  unfold Links.replaceImportsFn replaceImportsFn
  simp only
  by_cases hc : (!(infoOf p n).isDir && sourceName (infoOf p n).name) = true
  · have hs : sourceName (baseName p) = true := by
      cases n with
      | file m d => simpa [infoOf] using hc
      | dir m kids => simp [infoOf] at hc
    simp only [hc, if_true]
    rw [Links_replaceInFile_of_lookup tree links p n old new hl (hg hs)]
  · simp only [hc]
    rfl

theorem walkNames_congr (links : List (Path × Path)) (old new : Bytes) (fuel : Nat)
    (p : Path)
    (ih : ∀ (name : Bytes) (fs n : Node), lookup fs (p ++ [name]) = some n →
      walk (Links.replaceImportsFn links old new) fuel (p ++ [name]) (infoOf (p ++ [name]) n) fs =
        walk (replaceImportsFn old new) fuel (p ++ [name]) (infoOf (p ++ [name]) n) fs) :
    ∀ (ns : List Bytes) (fs : Node),
      walkNames (walk (Links.replaceImportsFn links old new) fuel)
          (Links.replaceImportsFn links old new) p ns fs =
        walkNames (walk (replaceImportsFn old new) fuel) (replaceImportsFn old new) p ns fs := by
  intro ns
  induction ns with
  | nil => intro fs; rfl
  | cons name rest ihn =>
    intro fs
    cases hl : lookup fs (p ++ [name]) with
    | none =>
      simp [walkNames, Lstat_of_none fs _ hl, Links.replaceImportsFn, replaceImportsFn]
    | some n =>
      simp only [walkNames, Lstat_of_lookup fs _ n hl, ih name fs n hl]
      rcases walk (replaceImportsFn old new) fuel (p ++ [name]) (infoOf (p ++ [name]) n) fs
        with ⟨e1, fs1⟩
      cases e1 with
      | some err => rfl
      | none => exact ihn fs1

/-- Under a root below which no link has a name ending in `.go` or `.mod`, the walk
with links is the walk on the tree. -/
theorem walk_congr (links : List (Path × Path)) (old new : Bytes) (root : Path)
    (hlinks : ∀ q, root <+: q → sourceName (baseName q) = true → getLink q links = none) :
    ∀ (fuel : Nat) (p : Path) (fs n : Node), root <+: p → lookup fs p = some n →
      walk (Links.replaceImportsFn links old new) fuel p (infoOf p n) fs =
        walk (replaceImportsFn old new) fuel p (infoOf p n) fs := by
  intro fuel
  induction fuel with
  | zero => intro p fs n _ _; rfl
  | succ fuel ih =>
    intro p fs n hp hl
    have hfn := Links_replaceImportsFn_of_lookup links old new fs p n hl (hlinks p hp)
    have hkids := walkNames_congr links old new fuel p
      (fun name fs1 n1 hl1 => ih (p ++ [name]) fs1 n1 (hp.trans (List.prefix_append _ _)) hl1)
    simp only [walk, hfn]
    by_cases hd : (!(infoOf p n).isDir) = true
    · simp only [hd, if_true]
    · simp only [hd]
      cases readDirNames fs p with
      | error e => rfl
      | ok names =>
        simp only
        rcases replaceImportsFn old new p (some (infoOf p n)) none fs with ⟨e1, fs1⟩
        cases e1 with
        | some err => rfl
        | none => exact hkids names fs1

theorem WalkOk_spelled (old new : Bytes) (root : Path) (fs : Node) (r : Option Err × Node)
    (h : WalkOk old new root fs r) :
    (∀ q, entryAt r.2 q = entryAt fs q ∨
      ∃ mode data, root <+: q ∧ sourceName (baseName q) = true ∧
        entryAt fs q = some (.file mode data) ∧
        entryAt r.2 q = some (.file mode (Replace data old new (-1)))) ∧
    (r.1 = none → ∀ q mode data, root <+: q → entryAt fs q = some (.file mode data) →
      sourceName (baseName q) = true →
      entryAt r.2 q = some (.file mode (Replace data old new (-1)))) ∧
    r.1 ≠ some .depth := by
  obtain ⟨hp, hs, hd⟩ := h
  refine ⟨?_, ?_, hd⟩
  · intro q
    rcases hp q with h1 | ⟨hq, h1⟩
    · exact Or.inl h1
    · cases he : entryAt fs q with
      | none => left; rw [h1, he]; rfl
      | some e =>
        cases e with
        | dir m ns => left; rw [h1, he]; rfl
        | file m d =>
          by_cases hn : sourceName (baseName q) = true
          · right
            refine ⟨m, d, hq, hn, rfl, ?_⟩
            rw [h1, he]
            simp [rewEntry, hn]
          · left
            rw [h1, he]
            simp [rewEntry, hn]
  · intro hnone q m d hpre he hn
    rw [hs hnone q hpre, he]
    simp [rewEntry, hn]

theorem lstatPath_without_links (tree : Node) (p : Path) :
    lstatPath ⟨tree, []⟩ p = some p := by
  have hf : ∀ (rest acc : Path), firstLink ⟨tree, []⟩ acc rest = none := by
    intro rest
    induction rest with
    | nil => intro acc; rfl
    | cons c rest1 ih =>
      intro acc
      simp [firstLink, linkAt_of_no_link tree [] (acc ++ [c]) rfl, ih]
  unfold lstatPath
  cases hg : p.getLast? with
  | none =>
    have : p = [] := List.getLast?_eq_none_iff.mp hg
    simp [this]
  | some base =>
    simp only [maxHops, realpath, hf, Option.map_some', Option.some.injEq]
    exact List.dropLast_append_getLast? base hg

/-- Without symbolic links, `replaceImportsInDir` with links is `replaceImportsInDir`
on the tree. -/
theorem Links_replaceImportsInDir_without_links (cwd : Path) (dir old new : Bytes)
    (tree : Node) :
    Links.replaceImportsInDir cwd dir old new ⟨tree, []⟩ =
      ((replaceImportsInDir cwd dir old new tree).1,
        ⟨(replaceImportsInDir cwd dir old new tree).2, []⟩) := by
  have hw : Links.Walk ⟨tree, []⟩ cwd dir (Links.replaceImportsFn [] old new) =
      Walk cwd dir (replaceImportsFn old new) tree := by
    unfold Links.Walk Walk
    cases resolve cwd dir with
    | none => rfl
    | some rootPath =>
      simp only [lstatPath_without_links]
      cases hl : lookup tree rootPath with
      | none => rw [Lstat_of_none tree _ hl]; rfl
      | some n =>
        rw [Lstat_of_lookup tree _ n hl]
        exact walk_congr [] old new rootPath (fun _ _ _ => rfl) _ rootPath tree n
          (List.prefix_refl _) hl
  unfold Links.replaceImportsInDir replaceImportsInDir
  simp only [hw]


/-- C8, as the code has it: provided no symbolic link under the root has a name
ending in `.go` or `.mod`, `replaceImportsInDir` changes an entry of the tree only
if it is a file under the root whose name ends in `.go` or `.mod`, and then to the
same file (same permissions) with the content `replaceInFile` writes; every
directory and every file of another name keeps its entry, whatever the walk returns,
and no link changes. When the walk succeeds, the root resolves and every file under
it whose name ends in `.go` or `.mod` has been rewritten so. The depth bound of the
model never stops the walk. -/
theorem replaceImportsInDir_rewrites_sources_only (cwd : Path) (dir old new : Bytes)
    (fs : Linked)
    (hlinks : ∀ root p t, Links.walkRoot fs cwd dir = some root → (p, t) ∈ fs.links →
      root <+: p → sourceName (baseName p) = false) :
    (Links.replaceImportsInDir cwd dir old new fs).2.links = fs.links ∧
    (∀ q, entryAt (Links.replaceImportsInDir cwd dir old new fs).2.tree q = entryAt fs.tree q ∨
      ∃ root mode data, Links.walkRoot fs cwd dir = some root ∧ root <+: q ∧
        sourceName (baseName q) = true ∧ entryAt fs.tree q = some (.file mode data) ∧
        entryAt (Links.replaceImportsInDir cwd dir old new fs).2.tree q =
          some (.file mode (Replace data old new (-1)))) ∧
    ((Links.replaceImportsInDir cwd dir old new fs).1 = none →
      ∃ root, Links.walkRoot fs cwd dir = some root ∧
        ∀ q mode data, root <+: q → entryAt fs.tree q = some (.file mode data) →
          sourceName (baseName q) = true →
          entryAt (Links.replaceImportsInDir cwd dir old new fs).2.tree q =
            some (.file mode (Replace data old new (-1)))) ∧
    (Links.replaceImportsInDir cwd dir old new fs).1 ≠ some .depth := by
  refine ⟨rfl, ?_⟩
  unfold Links.replaceImportsInDir Links.Walk
  unfold Links.walkRoot at hlinks ⊢
  cases hres : resolve cwd dir with
  | none => simp [Links.replaceImportsFn]
  | some rootPath =>
    simp only [hres] at hlinks ⊢
    cases hc : lstatPath fs rootPath with
    | none => simp [Links.replaceImportsFn]
    | some canon =>
      simp only [hc] at hlinks ⊢
      cases hl : lookup fs.tree canon with
      | none =>
        rw [Lstat_of_none fs.tree canon hl]
        simp [Links.replaceImportsFn]
      | some n =>
        rw [Lstat_of_lookup fs.tree canon n hl]
        simp only
        have hfree : ∀ q, canon <+: q → sourceName (baseName q) = true →
            getLink q fs.links = none := by
          intro q hq hs
          cases hg : getLink q fs.links with
          | none => rfl
          | some t =>
            have := hlinks canon q t rfl (getLink_mem q fs.links t hg) hq
            rw [this] at hs
            cases hs
        rw [walk_congr fs.links old new canon hfree _ canon fs.tree n (List.prefix_refl _) hl]
        have hb : ∀ q, (entryAt fs.tree q).isSome = true →
            q.length < fs.tree.height + 1 + canon.length := by
          intro q hq
          cases hq1 : lookup fs.tree q with
          | none => simp [entryAt, hq1] at hq
          | some k =>
            have := lookup_height q fs.tree k hq1
            omega
        obtain ⟨h1, h2, h3⟩ := WalkOk_spelled old new canon fs.tree _
          (walk_ok old new (fs.tree.height + 1) canon fs.tree n hl hb)
        refine ⟨?_, ?_, h3⟩
        · intro q
          rcases h1 q with h | ⟨m, d, hq, hs, he, h⟩
          · exact Or.inl h
          · exact Or.inr ⟨canon, m, d, rfl, hq, hs, he, h⟩
        · intro hnone
          exact ⟨canon, rfl, h2 hnone⟩

/-- C8 on a concrete tree with a symbolic link of another name, `latest`, to
`notes.txt`: the walk succeeds, `a.go` is rewritten, and `notes.txt`, which holds
the old string too, is not. -/
theorem replaceImportsInDir_rewrites_sources_only_witness :
    (Links.replaceImportsInDir [] (ascii "/") (ascii "x/tmpl") (ascii "y/app")
        harmlessLinkFs).1 = none ∧
    entryAt (Links.replaceImportsInDir [] (ascii "/") (ascii "x/tmpl") (ascii "y/app")
        harmlessLinkFs).2.tree [ascii "a.go"] = some (.file 0o640 (ascii "y/app-kit y/app")) ∧
    entryAt (Links.replaceImportsInDir [] (ascii "/") (ascii "x/tmpl") (ascii "y/app")
        harmlessLinkFs).2.tree [ascii "notes.txt"] = some (.file 0o644 (ascii "x/tmpl")) ∧
    (Links.replaceImportsInDir [] (ascii "/") (ascii "x/tmpl") (ascii "y/app")
        harmlessLinkFs).1 ≠ some .depth :=
  ⟨by decide, by decide, by decide,
    (replaceImportsInDir_rewrites_sources_only [] (ascii "/") (ascii "x/tmpl") (ascii "y/app")
      harmlessLinkFs (by
        intro root p t _ hmem _
        have hp : p = [ascii "latest"] := by
          simp [harmlessLinkFs] at hmem
          exact hmem.1
        rw [hp]
        decide)).2.2.2⟩

/-- C8 as stated fails: where `x.go` is a symbolic link to `notes.txt`, the walk meets
`x.go` as a non-directory entry whose name ends in `.go`, `replaceInFile` follows
the link, and the content of `notes.txt`, a file of another name, is changed. -/
theorem replaceImportsInDir_rewrites_through_link :
    (Links.replaceImportsInDir [] (ascii "/") (ascii "x/tmpl") (ascii "y/app") linkedFs).1 =
      none ∧
    sourceName (ascii "notes.txt") = false ∧
    entryAt linkedFs.tree [ascii "notes.txt"] = some (.file 0o644 (ascii "x/tmpl")) ∧
    entryAt (Links.replaceImportsInDir [] (ascii "/") (ascii "x/tmpl") (ascii "y/app")
        linkedFs).2.tree [ascii "notes.txt"] = some (.file 0o644 (ascii "y/app")) := by
  decide


/-- C7: `run` is fail-fast. For each of its six steps (clone, rewrite, removal of
`.git`, `git init`, chdir, `go mod tidy`): when the steps before it succeed and it
fails with `e`, `run` returns `e` wrapped with that step's prefix, in the state that
step left (which holds what the completed steps did; nothing is undone), and the
trace ends with that step: no later step has run. In particular a failing clone
gives `clone failed: ...` after the clone call alone. When all six succeed `run`
returns no error. -/
theorem run_fail_fast (T : Tools) (opts : Opts) (w : World) :
    (∀ e, (afterClone T opts w).1 = some e →
      run T opts w = (some (.wrap "clone failed" e), (afterClone T opts w).2) ∧
      (Err.wrap "clone failed" e).Error = "clone failed: " ++ e.Error ∧
      (run T opts w).2.trace = w.trace ++ [.clone (targetDir opts) opts.RepoURL w.cwd]) ∧
    ((afterClone T opts w).1 = none →
      (∀ e, (afterRewrite T opts w).1 = some e →
        run T opts w = (some (.wrap "replace imports failed" e), (afterRewrite T opts w).2) ∧
        (run T opts w).2.trace = w.trace ++
          [.clone (targetDir opts) opts.RepoURL w.cwd, .walk (targetDir opts) w.cwd]) ∧
      ((afterRewrite T opts w).1 = none →
        (∀ e, (afterRemove T opts w).1 = some e →
          run T opts w = (some (.wrap "remove .git failed" e), (afterRemove T opts w).2) ∧
          (run T opts w).2.trace = w.trace ++
            [.clone (targetDir opts) opts.RepoURL w.cwd, .walk (targetDir opts) w.cwd,
              .removeAll (targetDir opts ++ ascii "/.git") w.cwd]) ∧
        ((afterRemove T opts w).1 = none →
          (∀ e, (afterInit T opts w).1 = some e →
            run T opts w = (some (.wrap "git init failed" e), (afterInit T opts w).2) ∧
            (run T opts w).2.trace = w.trace ++
              [.clone (targetDir opts) opts.RepoURL w.cwd, .walk (targetDir opts) w.cwd,
                .removeAll (targetDir opts ++ ascii "/.git") w.cwd,
                .exec "git" ["init"] w.cwd]) ∧
          ((afterInit T opts w).1 = none →
            (∀ e, (afterChdir T opts w).1 = some e →
              run T opts w = (some (.wrap "chdir failed" e), (afterChdir T opts w).2) ∧
              (run T opts w).2.trace = w.trace ++
                [.clone (targetDir opts) opts.RepoURL w.cwd, .walk (targetDir opts) w.cwd,
                  .removeAll (targetDir opts ++ ascii "/.git") w.cwd,
                  .exec "git" ["init"] w.cwd, .chdir (targetDir opts) w.cwd]) ∧
            ((afterChdir T opts w).1 = none →
              (∀ e, (afterTidy T opts w).1 = some e →
                run T opts w =
                  (some (.wrap "go mod tidy failed" e), (afterTidy T opts w).2)) ∧
              ((afterTidy T opts w).1 = none →
                run T opts w = (none, (afterTidy T opts w).2))))))) := by
  refine ⟨?_, ?_⟩
  · intro e h1
    have hr := run_of_clone_error T opts w e h1
    refine ⟨hr, rfl, ?_⟩
    rw [hr]
    exact afterClone_trace T opts w
  · intro h1
    obtain ⟨s2, r2⟩ := run_steps T opts w h1
    refine ⟨?_, ?_⟩
    · intro e h2
      have hr := s2 e h2
      refine ⟨hr, ?_⟩
      rw [hr]
      exact afterRewrite_trace T opts w
    · intro h2
      obtain ⟨s3, r3⟩ := r2 h2
      refine ⟨?_, ?_⟩
      · intro e h3
        have hr := s3 e h3
        refine ⟨hr, ?_⟩
        rw [hr]
        exact afterRemove_trace T opts w
      · intro h3
        obtain ⟨s4, r4⟩ := r3 h3
        refine ⟨?_, ?_⟩
        · intro e h4
          have hr := s4 e h4
          refine ⟨hr, ?_⟩
          rw [hr]
          exact afterInit_trace T opts w
        · intro h4
          obtain ⟨s5, r5⟩ := r4 h4
          refine ⟨?_, ?_⟩
          · intro e h5
            have hr := s5 e h5
            refine ⟨hr, ?_⟩
            rw [hr]
            exact afterChdir_trace T opts w
          · intro h5
            exact r5 h5

/-- C10: in every run that succeeds, the outside calls are, in this order and each in
the working directory named: the clone, the walk, the removal of `.git` under the
target directory and `git init`, all in the working directory `run` started in, then
the one call of `os.Chdir`, to the target directory, then `go mod tidy` in the target
directory, where the run ends. -/
theorem run_success_trace (T : Tools) (opts : Opts) (w : World)
    (hrun : (run T opts w).1 = none) :
    ∃ target, resolve w.cwd (opts.Dir ++ opts.Project) = some target ∧
      resolve w.cwd (opts.Dir ++ opts.Project ++ ascii "/.git") =
        some (target ++ [ascii ".git"]) ∧
      (run T opts w).2.trace = w.trace ++
        [.clone (opts.Dir ++ opts.Project) opts.RepoURL w.cwd,
          .walk (opts.Dir ++ opts.Project) w.cwd,
          .removeAll (opts.Dir ++ opts.Project ++ ascii "/.git") w.cwd,
          .exec "git" ["init"] w.cwd,
          .chdir (opts.Dir ++ opts.Project) w.cwd,
          .exec "go" ["mod", "tidy"] target] ∧
      (run T opts w).2.cwd = target := by
  obtain ⟨_, _, _, _, h5, _, hr⟩ := run_success T opts w hrun
  have ht := afterChdir_ok T opts w h5
  refine ⟨(afterChdir T opts w).2.cwd, ht, resolve_dotGit w.cwd _ _ ht, ?_, ?_⟩
  · rw [hr]
    exact afterTidy_trace T opts w
  · rw [hr]
    rfl

/-- C10 on the sample machine with the default options: started in `/work`, the run
makes five calls there, `git init` among them, and `go mod tidy` in
`/work/new-project`. -/
theorem run_success_trace_witness :
    ∃ target, resolve sampleWorld.cwd (defaultOpts.Dir ++ defaultOpts.Project) = some target ∧
      resolve sampleWorld.cwd (defaultOpts.Dir ++ defaultOpts.Project ++ ascii "/.git") =
        some (target ++ [ascii ".git"]) ∧
      (run sampleTools defaultOpts sampleWorld).2.trace = sampleWorld.trace ++
        [.clone (defaultOpts.Dir ++ defaultOpts.Project) defaultOpts.RepoURL sampleWorld.cwd,
          .walk (defaultOpts.Dir ++ defaultOpts.Project) sampleWorld.cwd,
          .removeAll (defaultOpts.Dir ++ defaultOpts.Project ++ ascii "/.git") sampleWorld.cwd,
          .exec "git" ["init"] sampleWorld.cwd,
          .chdir (defaultOpts.Dir ++ defaultOpts.Project) sampleWorld.cwd,
          .exec "go" ["mod", "tidy"] target] ∧
      (run sampleTools defaultOpts sampleWorld).2.cwd = target :=
  run_success_trace sampleTools defaultOpts sampleWorld (by decide)


/-- C7 on the sample machine: the clone into the non-empty `/work` fails, `run`
returns the clone-phase error and the trace holds the clone call alone. -/
theorem run_fail_fast_witness :
    run sampleTools occupiedOpts sampleWorld =
      (some (.wrap "clone failed" (.tool "repository already exists")),
        (afterClone sampleTools occupiedOpts sampleWorld).2) ∧
    (Err.wrap "clone failed" (.tool "repository already exists")).Error =
      "clone failed: " ++ (Err.tool "repository already exists").Error ∧
    (run sampleTools occupiedOpts sampleWorld).2.trace = sampleWorld.trace ++
      [.clone (targetDir occupiedOpts) occupiedOpts.RepoURL sampleWorld.cwd] :=
  (run_fail_fast sampleTools occupiedOpts sampleWorld).1 (.tool "repository already exists")
    (by decide)

/-- C3, as the code has it: after a run that succeeds, the target directory holds no
`.git`, provided the target directory is not the working directory `run` starts in
(`git init` runs there and creates its `.git` there), and given of the tools that
`git init` creates no `.git` in another directory than its own and `go mod tidy`
creates none at all. -/
theorem run_leaves_no_dotGit (T : Tools) (opts : Opts) (w : World)
    (hrun : (run T opts w).1 = none)
    (hcwd : resolve w.cwd (opts.Dir ++ opts.Project) ≠ some w.cwd)
    (hgit : ∀ (t cwd : Path) (fs : Node), t ≠ cwd →
      entryAt fs (t ++ [ascii ".git"]) = none →
      entryAt (T.exec "git" ["init"] cwd fs).2 (t ++ [ascii ".git"]) = none)
    (htidy : ∀ (t cwd : Path) (fs : Node),
      entryAt fs (t ++ [ascii ".git"]) = none →
      entryAt (T.exec "go" ["mod", "tidy"] cwd fs).2 (t ++ [ascii ".git"]) = none) :
    ∃ target, resolve w.cwd (opts.Dir ++ opts.Project) = some target ∧
      entryAt (run T opts w).2.fs (target ++ [ascii ".git"]) = none := by
  obtain ⟨_, _, h3, _, h5, _, hr⟩ := run_success T opts w hrun
  have ht := afterChdir_ok T opts w h5
  refine ⟨(afterChdir T opts w).2.cwd, ht, ?_⟩
  have hne : (afterChdir T opts w).2.cwd ≠ w.cwd := by
    intro e
    rw [e] at ht
    exact hcwd ht
  have g3 := afterRemove_gone T opts w _ ht h3
  have g4 := hgit _ w.cwd _ hne g3
  rw [← afterInit_fs, ← afterChdir_fs] at g4
  have g6 := htidy _ (afterChdir T opts w).2.cwd _ g4
  rw [← afterTidy_fs] at g6
  rw [hr]
  exact g6

/-- C3 on the sample machine with the default options: started in `/work`, the run
leaves no `.git` in `/work/new-project`. -/
theorem run_leaves_no_dotGit_witness :
    ∃ target, resolve sampleWorld.cwd (defaultOpts.Dir ++ defaultOpts.Project) = some target ∧
      entryAt (run sampleTools defaultOpts sampleWorld).2.fs (target ++ [ascii ".git"]) =
        none :=
  run_leaves_no_dotGit sampleTools defaultOpts sampleWorld (by decide) (by decide)
    (fun t cwd fs hne h => sampleTools_git_init_dotGit t cwd fs hne h)
    (fun t cwd fs h => by rw [sampleTools_go_mod_tidy]; exact h)

/-- C3 as stated fails: started inside the target directory `/work/app` (given as
`--dir=/work/ --project=app`), the run succeeds and leaves the `.git` that `git init`
created in the target directory. -/
theorem run_leaves_dotGit_in_place :
    (run sampleTools inPlaceOpts inPlaceWorld).1 = none ∧
    resolve inPlaceWorld.cwd (inPlaceOpts.Dir ++ inPlaceOpts.Project) =
      some [ascii "work", ascii "app"] ∧
    entryAt (run sampleTools inPlaceOpts inPlaceWorld).2.fs
        [ascii "work", ascii "app", ascii ".git"] = some (.dir 0o755 []) := by
  decide

/-- C2, as the code has it: after a run that succeeds, no file under the target
directory whose name ends in `.go` or `.mod` holds an occurrence of the old import
path, provided the old import path is not empty and cannot overlap the new one (no
non-empty end of one of the two, laid over the start of the other, agrees with it; in
particular the new path does not contain the old), and given of `git init` and
`go mod tidy` that they write no such occurrence. -/
theorem run_leaves_no_old_import (T : Tools) (opts : Opts) (w : World)
    (hrun : (run T opts w).1 = none)
    (hne : oldImport opts ≠ [])
    (hov : overlaps (oldImport opts) (newImport opts) = false)
    (hgit : ∀ (target cwd : Path) (fs : Node), NoOld (oldImport opts) target fs →
      NoOld (oldImport opts) target (T.exec "git" ["init"] cwd fs).2)
    (htidy : ∀ (target cwd : Path) (fs : Node), NoOld (oldImport opts) target fs →
      NoOld (oldImport opts) target (T.exec "go" ["mod", "tidy"] cwd fs).2) :
    ∃ target, resolve w.cwd (opts.Dir ++ opts.Project) = some target ∧
      NoOld (oldImport opts) target (run T opts w).2.fs := by
  obtain ⟨_, h2, _, _, _, _, hr⟩ := run_success T opts w hrun
  obtain ⟨target, ht, hq⟩ := afterRewrite_ok T opts w h2
  refine ⟨target, ht, ?_⟩
  have n2 : NoOld (oldImport opts) target (afterRewrite T opts w).2.fs := by
    intro q m d hpre he hn
    rw [hq q hpre] at he
    cases h1 : entryAt (afterClone T opts w).2.fs q with
    | none => rw [h1] at he; cases he
    | some e =>
      cases e with
      | dir m1 ns => rw [h1] at he; cases he
      | file m1 d1 =>
        rw [h1] at he
        simp only [rewEntry, hn, if_true, Option.some.injEq, Entry.file.injEq] at he
        rw [← he.2]
        exact not_occurs_Replace d1 _ _ hne hov
  have n3 : NoOld (oldImport opts) target (afterRemove T opts w).2.fs := by
    intro q m d hpre he hn
    exact n2 q m d hpre (afterRemove_files T opts w q m d he) hn
  have n4 := hgit target w.cwd _ n3
  rw [← afterInit_fs, ← afterChdir_fs] at n4
  have n6 := htidy target (afterChdir T opts w).2.cwd _ n4
  rw [← afterTidy_fs] at n6
  rw [hr]
  exact n6

/-- C2 on the sample machine with the default options: the old import path
`github.com/ravilushqa/boilerplate` and the new one
`github.com/ravilushqa/new-project` cannot overlap, and no source file of the new
project names the old path. -/
theorem run_leaves_no_old_import_witness :
    ∃ target, resolve sampleWorld.cwd (defaultOpts.Dir ++ defaultOpts.Project) = some target ∧
      NoOld (oldImport defaultOpts) target (run sampleTools defaultOpts sampleWorld).2.fs :=
  run_leaves_no_old_import sampleTools defaultOpts sampleWorld (by decide) (by decide)
    (by decide)
    (fun target cwd fs h => sampleTools_git_init_NoOld _ target cwd fs h)
    (fun target cwd fs h => by rw [sampleTools_go_mod_tidy]; exact h)

/-- C2 as stated fails: with the project name `boilerplate-v2` the new import path
contains the old one, and after the run that succeeds `main.go` in the target
directory still holds an occurrence of the old import path. -/
theorem run_leaves_old_import_in_extended_name :
    (run sampleTools extendedNameOpts sampleWorld).1 = none ∧
    resolve sampleWorld.cwd (extendedNameOpts.Dir ++ extendedNameOpts.Project) =
      some [ascii "work", ascii "boilerplate-v2"] ∧
    entryAt (run sampleTools extendedNameOpts sampleWorld).2.fs
        [ascii "work", ascii "boilerplate-v2", ascii "main.go"] =
      some (.file 0o644 (ascii "import \"github.com/ravilushqa/boilerplate-v2/pkg\"")) ∧
    Occurs (oldImport extendedNameOpts)
      (ascii "import \"github.com/ravilushqa/boilerplate-v2/pkg\"") := by
  decide

end Servigo
